import Mathlib

/-!
Verification of the per-job submission-migration pipeline of the
`push_to_inat` batch script (`src/push_to_inat/scripts/main.py`), against its
natural-language specification.

The script is shallowly embedded as pure Lean functions over an explicit
`WorldState`.  External systems (the job object store, the source platform,
the destination platform, the backup object store, local disk) are modelled
as fields of `WorldState`; calls that can raise are driven by Boolean
oracles in `Env`.  Every external call appends an `Event` to a trace, which
lets us state temporal properties ("X never happens before Y").  A Python
exception corresponds to the `.error` constructor of `Except WorldState _`,
carrying the world state at the instant the exception was raised; the
exception propagates exactly as in the script (there is no try/except in
`main.py`).
-/

namespace PushToInat

/-- One submission record as returned by the submissions API
(`record` in `main.py`; field names follow the JSON payload,
with `instance_` standing for the Python key `instance`). -/
structure Record where
  instance_ : String
  images : List String
  taxa : String
  longitude : String
  latitude : String
  ts : String
  positional_accuracy : String
  notes : String
  observation_fields : List (String × String)
deriving DecidableEq

/-- One stored job descriptor (the JSON body of an object in the job
bucket, as read by `get_job_data`). -/
structure Descriptor where
  kobo_username : String
  kobo_password : String
  kobo_uid : String
  inaturalist_email : String
  inaturalist_password : String
  client_id : String
  client_secret : String
  instances : List String
deriving DecidableEq

/-- The tuple built by `get_job_data` in `main.py`: the credentials of the
last descriptor read, the merged instance set, and the keys retained for
deletion. -/
structure JobData where
  kobo_username : String
  kobo_password : String
  kobo_uid : String
  inat_username : String
  inat_password : String
  inat_client_id : String
  inat_client_secret : String
  instances : List String
  objects_to_delete : List String
deriving DecidableEq

/-- External calls made by the script, recorded in order of occurrence.
Calls that can raise carry an `ok` flag: `false` means the call raised. -/
inductive Event where
  | listJobs (email : String)
  | getJobObject (key : String)
  | fetchSubmissions (ok : Bool)
  | pullImage (uid inst img : String) (ok : Bool)
  | pullInstance (uid inst : String) (ok : Bool)
  | putBackup (key : String) (ok : Bool)
  | uploadBase (inst : String) (ok : Bool)
  | attachImage (path : String) (ok : Bool)
  | attachField (fid : Int) (v : String) (ok : Bool)
  | invalidFieldId (fid : String)
  | deleteInstance (uid inst : String) (ok : Bool)
  | deleteJobObject (key : String) (ok : Bool)
deriving DecidableEq

/-- State of all the stores the script touches, plus the event trace. -/
structure WorldState where
  jobStore : List (String × Descriptor)
  sourceInstances : List (String × String)
  backup : List (String × String)
  localFiles : List (String × String)
  trace : List Event
deriving DecidableEq

/-- Outcomes of the external calls, and the data they return.  A `Bool`
oracle decides whether the corresponding call raises. -/
structure Env where
  fetchOk : Bool
  submissionsResponse : List Record
  pullImageOk : String → String → String → Bool
  imageBytes : String → String → String → String
  pullInstanceOk : String → String → Bool
  instancePayload : String → String → List (String × String)
  putBackupOk : String → Bool
  uploadBaseOk : Record → Bool
  attachImageOk : String → Bool
  attachFieldOk : Int → String → Bool
  deleteInstanceOk : String → String → Bool
  deleteJobObjectOk : String → Bool

/-- Append one event to the trace. -/
def emit (s : WorldState) (e : Event) : WorldState :=
  { s with trace := s.trace ++ [e] }

/-- Last-write-wins lookup in an append-log of key/value pairs
(the semantics of reading an object-store key after a series of puts). -/
def lookupLast (l : List (String × String)) (k : String) : Option String :=
  (l.reverse.find? (fun kv => kv.1 == k)).map (fun kv => kv.2)

/-- True when the result is the `.error` constructor (a Python exception). -/
def isErr {α : Type} : Except WorldState α → Bool
  | .error _ => true
  | .ok _ => false

/-- The world state carried by either constructor. -/
def resState : Except WorldState WorldState → WorldState
  | .error s => s
  | .ok s => s

/-- Python `s.startswith(p)`, used by the `Prefix=email` object filter. -/
def strStartsWith (s p : String) : Bool :=
  p.data.isPrefixOf s.data

/-- Python `path.split(chr(95))[-1]`: the characters after the last
underscore of the string (the whole string when it has no underscore). -/
def lastToken (s : String) : String :=
  String.mk (s.data.foldl (fun acc c => if c = '_' then [] else acc ++ [c]) [])

/-- Local file path used by `pull_images`:
the Python f-string with uid, instance and image joined by underscores. -/
def imagePath (uid inst img : String) : String :=
  uid ++ "_" ++ inst ++ "_" ++ img

/-- Backup key of the record body JSON. -/
def jsonKey (uid inst : String) : String :=
  uid ++ "/" ++ inst ++ ".json"

/-- Backup key of one image, derived from the local path by taking the
final underscore-delimited token, as `backup_record` does. -/
def imgKeyOfPath (uid inst path : String) : String :=
  uid ++ "/" ++ inst ++ "/" ++ lastToken path ++ ".jpg"

/-- Backup keys of all images of a record, in materialization order. -/
def imgBackupKeys (uid : String) (r : Record) : List String :=
  r.images.map (fun img => imgKeyOfPath uid r.instance_ (imagePath uid r.instance_ img))

/-- Lexicographic comparison of character lists by code point, used to
model the ascending key sort of `json.dumps(.., sort_keys=True)`. -/
def charListLt : List Char → List Char → Bool
  | [], [] => false
  | [], _ :: _ => true
  | _ :: _, [] => false
  | a :: as, b :: bs =>
    if a.val < b.val then true
    else if b.val < a.val then false
    else charListLt as bs

/-- Ordered insertion used to model the stable key ordering of
`json.dumps(.., sort_keys=True)`. -/
def insertByKey (kv : String × String) : List (String × String) → List (String × String)
  | [] => [kv]
  | x :: xs => if charListLt kv.1.data x.1.data then kv :: x :: xs else x :: insertByKey kv xs

/-- Sort an association list by key. -/
def sortByKey (l : List (String × String)) : List (String × String) :=
  l.foldr insertByKey []

/-- Comma-separated rendering of the serialized entries. -/
def joinComma : List String → String
  | [] => ""
  | [x] => x
  | x :: xs => x ++ ", " ++ joinComma xs

/-- Deterministic serialization of the instance payload with stable key
ordering, modelling `json.dumps(kobo_record, indent=4, sort_keys=True)`. -/
def dumps (payload : List (String × String)) : String :=
  joinComma ((sortByKey payload).map (fun kv => kv.1 ++ ": " ++ kv.2))

/-- Digit-string value, `none` when some character is not a decimal digit
or the string is empty. -/
def digitsToNat : List Char → Option Nat
  | [] => none
  | ds => ds.foldl
      (fun acc c => acc.bind (fun n => if c.isDigit then some (n * 10 + (c.toNat - 48)) else none))
      (some 0)

/-- Python `int(s)` on a decimal literal with an optional sign,
`none` when the string is not an integer literal (a `ValueError`). -/
def strToInt (s : String) : Option Int :=
  match s.data with
  | '-' :: ds => (digitsToNat ds).map (fun n => -(n : Int))
  | '+' :: ds => (digitsToNat ds).map (fun n => (n : Int))
  | ds => (digitsToNat ds).map (fun n => (n : Int))

/-- One step of the descriptor loop in `get_job_data`: the key is retained
for deletion, the credentials are overwritten (so the last descriptor
wins), and the instance set is merged. -/
def jobStep (acc : JobData) (kv : String × Descriptor) : JobData :=
  { kobo_username := kv.2.kobo_username
    kobo_password := kv.2.kobo_password
    kobo_uid := kv.2.kobo_uid
    inat_username := kv.2.inaturalist_email
    inat_password := kv.2.inaturalist_password
    inat_client_id := kv.2.client_id
    inat_client_secret := kv.2.client_secret
    instances := acc.instances ++ kv.2.instances
    objects_to_delete := acc.objects_to_delete ++ [kv.1] }

/-- Initial accumulator of the descriptor loop (never returned, since the
loop is only entered when at least one descriptor exists). -/
def emptyJobData : JobData :=
  { kobo_username := "", kobo_password := "", kobo_uid := ""
    inat_username := "", inat_password := ""
    inat_client_id := "", inat_client_secret := ""
    instances := [], objects_to_delete := [] }

/-- Embedding of `get_job_data`: list the job-store objects whose key
starts with `email`; with no match return `none` (the all-`None` tuple);
otherwise fold the descriptor loop over the matches. -/
def get_job_data (email : String) (store : List (String × Descriptor)) : Option JobData :=
  match store.filter (fun kv => strStartsWith kv.1 email) with
  | [] => none
  | x :: xs => some ((x :: xs).foldl jobStep emptyJobData)

/-- Embedding of the client-side filter in `get_submissions`
(the list comprehension over the API response). -/
def filter_submissions (response : List Record) (instances : List String) : List Record :=
  response.filter (fun r => r.instance_ ∈ instances)

/-- Loop of `pull_images`: each image is fetched from the source platform
into a local file at `imagePath`; a pull failure raises at once. -/
def pullImagesAux (e : Env) (uid inst : String) :
    List String → WorldState → Except WorldState (WorldState × List String)
  | [], s => .ok (s, [])
  | img :: rest, s =>
    if e.pullImageOk uid inst img then
      let s' := { emit s (.pullImage uid inst img true) with
                  localFiles := s.localFiles ++ [(imagePath uid inst img, e.imageBytes uid inst img)] }
      match pullImagesAux e uid inst rest s' with
      | .ok (s'', ps) => .ok (s'', imagePath uid inst img :: ps)
      | .error s'' => .error s''
    else .error (emit s (.pullImage uid inst img false))

/-- Embedding of `pull_images`. -/
def pull_images (e : Env) (uid : String) (r : Record) (s : WorldState) :
    Except WorldState (WorldState × List String) :=
  pullImagesAux e uid r.instance_ r.images s

/-- Image-backup loop of `backup_record`: read each local file back and put
it under the suffix-derived key; a missing file or a failed put raises. -/
def backupImagesAux (e : Env) (uid inst : String) :
    List String → WorldState → Except WorldState WorldState
  | [], s => .ok s
  | path :: rest, s =>
    match lookupLast s.localFiles path with
    | none => .error s
    | some data =>
      if e.putBackupOk (imgKeyOfPath uid inst path) then
        backupImagesAux e uid inst rest
          { emit s (.putBackup (imgKeyOfPath uid inst path) true) with
            backup := s.backup ++ [(imgKeyOfPath uid inst path, data)] }
      else .error (emit s (.putBackup (imgKeyOfPath uid inst path) false))

/-- Embedding of `backup_record`: pull the instance payload, put its
sorted-key serialization under `jsonKey`, then back up every image. -/
def backup_record (e : Env) (uid : String) (r : Record) (paths : List String)
    (s : WorldState) : Except WorldState WorldState :=
  if e.pullInstanceOk uid r.instance_ then
    let s₁ := emit s (.pullInstance uid r.instance_ true)
    if e.putBackupOk (jsonKey uid r.instance_) then
      backupImagesAux e uid r.instance_ paths
        { emit s₁ (.putBackup (jsonKey uid r.instance_) true) with
          backup := s₁.backup ++ [(jsonKey uid r.instance_, dumps (e.instancePayload uid r.instance_))] }
    else .error (emit s₁ (.putBackup (jsonKey uid r.instance_) false))
  else .error (emit s (.pullInstance uid r.instance_ false))

/-- Image-attachment loop of `upload_to_inat`. -/
def attachImagesAux (e : Env) :
    List String → WorldState → Except WorldState WorldState
  | [], s => .ok s
  | path :: rest, s =>
    if e.attachImageOk path then
      attachImagesAux e rest (emit s (.attachImage path true))
    else .error (emit s (.attachImage path false))

/-- Observation-field loop of `upload_to_inat`: `int(field_id)` raises
`ValueError` when the key is not an integer literal. -/
def attachFieldsAux (e : Env) :
    List (String × String) → WorldState → Except WorldState WorldState
  | [], s => .ok s
  | (fid, v) :: rest, s =>
    match strToInt fid with
    | none => .error (emit s (.invalidFieldId fid))
    | some n =>
      if e.attachFieldOk n v then
        attachFieldsAux e rest (emit s (.attachField n v true))
      else .error (emit s (.attachField n v false))

/-- Embedding of `upload_to_inat`: create the base observation, then attach
the images in order, then the observation fields. -/
def upload_to_inat (e : Env) (r : Record) (paths : List String)
    (s : WorldState) : Except WorldState WorldState :=
  if e.uploadBaseOk r then
    match attachImagesAux e paths (emit s (.uploadBase r.instance_ true)) with
    | .ok s' => attachFieldsAux e r.observation_fields s'
    | .error s' => .error s'
  else .error (emit s (.uploadBase r.instance_ false))

/-- Body of the per-record loop in `main`: pull images, back up, upload,
then delete the source instance.  Any raise aborts with the state at the
point of the raise; the deletion happens only on the all-success path. -/
def process_record (e : Env) (uid : String) (r : Record) (s : WorldState) :
    Except WorldState WorldState :=
  match pull_images e uid r s with
  | .error s' => .error s'
  | .ok (s₁, paths) =>
    match backup_record e uid r paths s₁ with
    | .error s' => .error s'
    | .ok s₂ =>
      match upload_to_inat e r paths s₂ with
      | .error s' => .error s'
      | .ok s₃ =>
        if e.deleteInstanceOk uid r.instance_ then
          .ok { emit s₃ (.deleteInstance uid r.instance_ true) with
                sourceInstances := s₃.sourceInstances.erase (uid, r.instance_) }
        else .error (emit s₃ (.deleteInstance uid r.instance_ false))

/-- The `for record in submissions` loop of `main`. -/
def run_records (e : Env) (uid : String) :
    List Record → WorldState → Except WorldState WorldState
  | [], s => .ok s
  | r :: rest, s =>
    match process_record e uid r s with
    | .error s' => .error s'
    | .ok s' => run_records e uid rest s'

/-- The `for object in objects_to_delete` loop of `main`: delete each
retained job-store object; a failed delete raises. -/
def delete_objects (e : Env) :
    List String → WorldState → Except WorldState WorldState
  | [], s => .ok s
  | k :: rest, s =>
    if e.deleteJobObjectOk k then
      delete_objects e rest
        { emit s (.deleteJobObject k true) with
          jobStore := s.jobStore.filter (fun kv => kv.1 ≠ k) }
    else .error (emit s (.deleteJobObject k false))

/-- Network half of `get_submissions`: one request to the submissions API;
on success the response is filtered client-side by `filter_submissions`. -/
def get_submissions (e : Env) (instances : List String) (s : WorldState) :
    Except WorldState (WorldState × List Record) :=
  if e.fetchOk then
    .ok (emit s (.fetchSubmissions true), filter_submissions e.submissionsResponse instances)
  else .error (emit s (.fetchSubmissions false))

/-- Tail of `main`: the `for record in submissions` loop followed — only
when the loop raised nothing — by the deletion of the retained job-store
objects. -/
def finish_job (e : Env) (uid : String) (keys : List String) (subs : List Record)
    (s : WorldState) : Except WorldState WorldState :=
  match run_records e uid subs s with
  | .error s' => .error s'
  | .ok s₃ => delete_objects e keys s₃

/-- Embedding of `main`: load the job data (early return when absent),
fetch and filter the submissions, run the per-record loop, and delete the
retained job descriptors only after the loop finishes without a raise. -/
def main (e : Env) (email : String) (s : WorldState) : Except WorldState WorldState :=
  let s₀ := emit s (.listJobs email)
  match get_job_data email s₀.jobStore with
  | none => .ok s₀
  | some jd =>
    let s₁ := jd.objects_to_delete.foldl (fun acc k => emit acc (.getJobObject k)) s₀
    match get_submissions e jd.instances s₁ with
    | .error s' => .error s'
    | .ok (s₂, submissions) => finish_job e jd.kobo_uid jd.objects_to_delete submissions s₂

/-- State carried by a `pull_images` result, whichever constructor. -/
def resStateP : Except WorldState (WorldState × List String) → WorldState
  | .error s => s
  | .ok (s, _) => s

/-- Event classifier: an image pull, of either outcome. -/
def Event.isPullImage : Event → Bool
  | .pullImage _ _ _ _ => true
  | _ => false

/-- Event classifier: a backup-store put or the instance-payload pull
feeding it, of either outcome (the calls made by `backup_record`). -/
def Event.isBackupEvent : Event → Bool
  | .pullInstance _ _ _ => true
  | .putBackup _ _ => true
  | _ => false

/-- Event classifier: a destination-platform call of `upload_to_inat`,
of either outcome. -/
def Event.isUploadEvent : Event → Bool
  | .uploadBase _ _ => true
  | .attachImage _ _ => true
  | .attachField _ _ _ => true
  | .invalidFieldId _ => true
  | _ => false

/-- Event classifier: a successful destination-platform call. -/
def Event.isOkUpload : Event → Bool
  | .uploadBase _ true => true
  | .attachImage _ true => true
  | .attachField _ _ true => true
  | _ => false

/-- Event classifier: a successful backup-store put. -/
def Event.isPutTrue : Event → Bool
  | .putBackup _ true => true
  | _ => false

/-- Event classifier: a successful source-instance deletion. -/
def Event.isDelTrue : Event → Bool
  | .deleteInstance _ _ true => true
  | _ => false

/-- Event classifier: a job-descriptor deletion, of either outcome. -/
def Event.isDeleteJob : Event → Bool
  | .deleteJobObject _ _ => true
  | _ => false

/-- Event classifier: a failed call belonging to the processing of one
record (image pull, backup write, upload, field-id coercion, or
source-instance deletion). -/
def Event.isRecordFailure : Event → Bool
  | .pullImage _ _ _ false => true
  | .pullInstance _ _ false => true
  | .putBackup _ false => true
  | .uploadBase _ false => true
  | .attachImage _ false => true
  | .attachField _ _ false => true
  | .invalidFieldId _ => true
  | .deleteInstance _ _ false => true
  | _ => false

/-- Event classifier: any call belonging to the processing of one record
(as opposed to job loading, the submissions fetch, or descriptor cleanup). -/
def Event.isRecordEvent : Event → Bool
  | .pullImage _ _ _ _ => true
  | .pullInstance _ _ _ => true
  | .putBackup _ _ => true
  | .uploadBase _ _ => true
  | .attachImage _ _ => true
  | .attachField _ _ _ => true
  | .invalidFieldId _ => true
  | .deleteInstance _ _ _ => true
  | _ => false

/-- Scan of a trace checking that every successful deletion of a source
instance `(u, i)` is preceded by successful backup puts of all the keys
`req u i`.  `seen` accumulates the keys put so far. -/
def bgCheck (req : String → String → List String) :
    List Event → List String → Bool
  | [], _ => true
  | .putBackup k true :: rest, seen => bgCheck req rest (k :: seen)
  | .deleteInstance u i true :: rest, seen =>
    ((req u i).all fun k => seen.contains k) && bgCheck req rest seen
  | _ :: rest, seen => bgCheck req rest seen

/-- Requirement for the job-wide temporal property: before any instance is
deleted, its record-body JSON must have been backed up. -/
def dabReq : String → String → List String :=
  fun u i => [jsonKey u i]

/-- Requirement for the per-record temporal property: before the record's
instance is deleted, its record-body JSON and every one of its image
objects must have been backed up. -/
def recordReq (uid : String) (r : Record) : String → String → List String :=
  fun u i =>
    if u = uid ∧ i = r.instance_ then jsonKey uid r.instance_ :: imgBackupKeys uid r
    else []

/-! Concrete inputs used by witnesses and counterexamples. -/

/-- Sample record for instance `A` with two images and one observation
field. -/
def r0 : Record :=
  { instance_ := "A", images := ["img1", "img2"], taxa := "t", longitude := "0"
    latitude := "0", ts := "ts", positional_accuracy := "p", notes := "n"
    observation_fields := [("7", "v")] }

/-- Sample record for instance `B` with one image. -/
def rB : Record :=
  { instance_ := "B", images := ["pic"], taxa := "t", longitude := "1"
    latitude := "1", ts := "ts", positional_accuracy := "p", notes := "n"
    observation_fields := [] }

/-- Sample record for instance `C`, not part of the sample job. -/
def rC : Record :=
  { instance_ := "C", images := [], taxa := "t", longitude := "2"
    latitude := "2", ts := "ts", positional_accuracy := "p", notes := "n"
    observation_fields := [] }

/-- Record for instance `A` whose two image references share their final
underscore-delimited token. -/
def rColl : Record :=
  { instance_ := "A", images := ["a_x", "b_x"], taxa := "t", longitude := "0"
    latitude := "0", ts := "ts", positional_accuracy := "p", notes := "n"
    observation_fields := [] }

/-- Sample job descriptor covering instances `A` and `B`. -/
def d0 : Descriptor :=
  { kobo_username := "ku", kobo_password := "kp", kobo_uid := "uid"
    inaturalist_email := "ie", inaturalist_password := "ip"
    client_id := "ci", client_secret := "cs", instances := ["A", "B"] }

/-- Second sample descriptor with different credentials and instances. -/
def d1 : Descriptor :=
  { kobo_username := "ku2", kobo_password := "kp2", kobo_uid := "uid2"
    inaturalist_email := "ie2", inaturalist_password := "ip2"
    client_id := "ci2", client_secret := "cs2", instances := ["C"] }

/-- Initial world: one stored descriptor, two live source instances,
empty backup store, empty local disk, empty trace. -/
def st0 : WorldState :=
  { jobStore := [("e1", d0)], sourceInstances := [("uid", "A"), ("uid", "B")]
    backup := [], localFiles := [], trace := [] }

/-- Job store with two descriptors sharing the identity `e`. -/
def store2 : List (String × Descriptor) :=
  [("e1", d0), ("e2", d1)]

/-- The job data obtained by merging `store2`: credentials of the last
descriptor, the union of the instance sets, both keys retained. -/
def jd6 : JobData :=
  { kobo_username := "ku2", kobo_password := "kp2", kobo_uid := "uid2"
    inat_username := "ie2", inat_password := "ip2"
    inat_client_id := "ci2", inat_client_secret := "cs2"
    instances := ["A", "B", "C"], objects_to_delete := ["e1", "e2"] }

/-- Environment in which every external call succeeds. -/
def envOk : Env :=
  { fetchOk := true, submissionsResponse := [r0, rB, rC]
    pullImageOk := fun _ _ _ => true
    imageBytes := fun _ _ img => "bytes-" ++ img
    pullInstanceOk := fun _ _ => true
    instancePayload := fun _ inst => [("b", inst), ("a", "1")]
    putBackupOk := fun _ => true
    uploadBaseOk := fun _ => true
    attachImageOk := fun _ => true
    attachFieldOk := fun _ _ => true
    deleteInstanceOk := fun _ _ => true
    deleteJobObjectOk := fun _ => true }

/-- Environment in which pulling any image of instance `A` fails and
everything else succeeds. -/
def envPullFailA : Env :=
  { envOk with pullImageOk := fun _ inst _ => inst != "A" }

/-- Environment in which every backup-store put fails and everything else
succeeds. -/
def envPutFail : Env :=
  { envOk with putBackupOk := fun _ => false }

/-! Basic lemmas about the state helpers. -/

@[simp] theorem emit_jobStore (s : WorldState) (e : Event) : (emit s e).jobStore = s.jobStore := rfl

@[simp] theorem emit_sourceInstances (s : WorldState) (e : Event) :
    (emit s e).sourceInstances = s.sourceInstances := rfl

@[simp] theorem emit_backup (s : WorldState) (e : Event) : (emit s e).backup = s.backup := rfl

@[simp] theorem emit_localFiles (s : WorldState) (e : Event) :
    (emit s e).localFiles = s.localFiles := rfl

@[simp] theorem emit_trace (s : WorldState) (e : Event) : (emit s e).trace = s.trace ++ [e] := rfl

theorem lookupLast_append_notin (l₁ l₂ : List (String × String)) (k : String)
    (h : ∀ kv ∈ l₂, kv.1 ≠ k) : lookupLast (l₁ ++ l₂) k = lookupLast l₁ k := by
  unfold lookupLast
  rw [List.reverse_append, List.find?_append]
  have hnone : l₂.reverse.find? (fun kv => kv.1 == k) = none := by
    rw [List.find?_eq_none]
    intro kv hkv
    simp only [beq_iff_eq]
    exact h kv (List.mem_reverse.mp hkv)
  simp [hnone]

theorem lookupLast_isSome_of_mem (l : List (String × String)) (k v : String)
    (h : (k, v) ∈ l) : (lookupLast l k).isSome = true := by
  unfold lookupLast
  rw [Option.isSome_map']
  rw [List.find?_isSome]
  exact ⟨(k, v), List.mem_reverse.mpr h, by simp⟩

theorem lookupLast_append_singleton (l : List (String × String)) (k v : String) :
    lookupLast (l ++ [(k, v)]) k = some v := by
  unfold lookupLast
  simp

/-! Lemmas about key derivation. -/

theorem lastToken_no_underscore_aux :
    ∀ (ds acc : List Char), '_' ∉ ds →
      ds.foldl (fun acc c => if c = '_' then [] else acc ++ [c]) acc = acc ++ ds := by
  intro ds
  induction ds with
  | nil => simp
  | cons c rest ih =>
    intro acc h
    rw [List.mem_cons, not_or] at h
    have hc : ¬(c = '_') := fun hh => h.1 hh.symm
    simp only [List.foldl_cons, if_neg hc]
    rw [ih (acc ++ [c]) h.2]
    simp

theorem lastToken_reset_aux (l₁ l₂ : List Char) (acc : List Char) :
    (l₁ ++ '_' :: l₂).foldl (fun acc c => if c = '_' then [] else acc ++ [c]) acc
      = l₂.foldl (fun acc c => if c = '_' then [] else acc ++ [c]) [] := by
  rw [show l₁ ++ '_' :: l₂ = (l₁ ++ ['_']) ++ l₂ by simp, List.foldl_append, List.foldl_append]
  simp

theorem lastToken_imagePath (u i img : String) (h : '_' ∉ img.data) :
    lastToken (imagePath u i img) = img := by
  unfold lastToken imagePath
  have hdata : (u ++ "_" ++ i ++ "_" ++ img).data
      = (u.data ++ '_' :: i.data) ++ '_' :: img.data := by
    simp [String.data_append]
  rw [hdata, lastToken_reset_aux, lastToken_no_underscore_aux img.data [] h]
  rfl

theorem jsonKey_ne_imgKey (u i u' i' p : String) : jsonKey u i ≠ imgKeyOfPath u' i' p := by
  intro h
  have h' := congrArg (fun s : String => s.data.getLast?) h
  simp only [jsonKey, imgKeyOfPath, String.data_append] at h'
  rw [List.getLast?_append_of_ne_nil _ (show (".json" : String).data ≠ [] by decide),
    List.getLast?_append_of_ne_nil _ (show (".jpg" : String).data ≠ [] by decide)] at h'
  exact absurd h' (by decide)

/-! Lemmas about the backup-before-delete trace check. -/

theorem bg_mono (req : String → String → List String) :
    ∀ (tr : List Event) (s₁ s₂ : List String),
      (∀ k : String, k ∈ s₁ → k ∈ s₂) →
      bgCheck req tr s₁ = true → bgCheck req tr s₂ = true := by
  intro tr
  induction tr with
  | nil => intro s₁ s₂ _ _; rfl
  | cons e rest ih =>
    intro s₁ s₂ hsub h
    cases e with
    | putBackup k ok =>
      cases ok with
      | false => simp only [bgCheck] at h ⊢; exact ih _ _ hsub h
      | true =>
        simp only [bgCheck] at h ⊢
        refine ih _ _ ?_ h
        intro k' hk'
        rcases List.mem_cons.mp hk' with h1 | h1
        · exact List.mem_cons.mpr (Or.inl h1)
        · exact List.mem_cons.mpr (Or.inr (hsub _ h1))
    | deleteInstance u i ok =>
      cases ok with
      | false => simp only [bgCheck] at h ⊢; exact ih _ _ hsub h
      | true =>
        simp only [bgCheck, Bool.and_eq_true, List.all_eq_true] at h ⊢
        refine ⟨?_, ih _ _ hsub h.2⟩
        intro k hk
        exact List.elem_iff.mpr (hsub _ (List.elem_iff.mp (h.1 k hk)))
    | listJobs em => simp only [bgCheck] at h ⊢; exact ih _ _ hsub h
    | getJobObject k => simp only [bgCheck] at h ⊢; exact ih _ _ hsub h
    | fetchSubmissions ok => simp only [bgCheck] at h ⊢; exact ih _ _ hsub h
    | pullImage u i im ok => simp only [bgCheck] at h ⊢; exact ih _ _ hsub h
    | pullInstance u i ok => simp only [bgCheck] at h ⊢; exact ih _ _ hsub h
    | uploadBase i ok => simp only [bgCheck] at h ⊢; exact ih _ _ hsub h
    | attachImage p ok => simp only [bgCheck] at h ⊢; exact ih _ _ hsub h
    | attachField f v ok => simp only [bgCheck] at h ⊢; exact ih _ _ hsub h
    | invalidFieldId f => simp only [bgCheck] at h ⊢; exact ih _ _ hsub h
    | deleteJobObject k ok => simp only [bgCheck] at h ⊢; exact ih _ _ hsub h

theorem bg_append (req : String → String → List String) :
    ∀ (t₁ t₂ : List Event) (s : List String),
      bgCheck req t₁ s = true → bgCheck req t₂ [] = true →
      bgCheck req (t₁ ++ t₂) s = true := by
  intro t₁
  induction t₁ with
  | nil =>
    intro t₂ s _ h₂
    simpa using bg_mono req t₂ [] s (by intro k hk; cases hk) h₂
  | cons e rest ih =>
    intro t₂ s h₁ h₂
    cases e with
    | putBackup k ok =>
      cases ok with
      | false => simp only [List.cons_append, bgCheck] at h₁ ⊢; exact ih _ _ h₁ h₂
      | true => simp only [List.cons_append, bgCheck] at h₁ ⊢; exact ih _ _ h₁ h₂
    | deleteInstance u i ok =>
      cases ok with
      | false => simp only [List.cons_append, bgCheck] at h₁ ⊢; exact ih _ _ h₁ h₂
      | true =>
        simp only [List.cons_append, bgCheck, Bool.and_eq_true] at h₁ ⊢
        exact ⟨h₁.1, ih _ _ h₁.2 h₂⟩
    | listJobs em => simp only [List.cons_append, bgCheck] at h₁ ⊢; exact ih _ _ h₁ h₂
    | getJobObject k => simp only [List.cons_append, bgCheck] at h₁ ⊢; exact ih _ _ h₁ h₂
    | fetchSubmissions ok => simp only [List.cons_append, bgCheck] at h₁ ⊢; exact ih _ _ h₁ h₂
    | pullImage u i im ok => simp only [List.cons_append, bgCheck] at h₁ ⊢; exact ih _ _ h₁ h₂
    | pullInstance u i ok => simp only [List.cons_append, bgCheck] at h₁ ⊢; exact ih _ _ h₁ h₂
    | uploadBase i ok => simp only [List.cons_append, bgCheck] at h₁ ⊢; exact ih _ _ h₁ h₂
    | attachImage p ok => simp only [List.cons_append, bgCheck] at h₁ ⊢; exact ih _ _ h₁ h₂
    | attachField f v ok => simp only [List.cons_append, bgCheck] at h₁ ⊢; exact ih _ _ h₁ h₂
    | invalidFieldId f => simp only [List.cons_append, bgCheck] at h₁ ⊢; exact ih _ _ h₁ h₂
    | deleteJobObject k ok => simp only [List.cons_append, bgCheck] at h₁ ⊢; exact ih _ _ h₁ h₂

theorem bg_of_no_del (req : String → String → List String) :
    ∀ (tr : List Event), (∀ ev ∈ tr, ev.isDelTrue = false) →
      ∀ (s : List String), bgCheck req tr s = true := by
  intro tr
  induction tr with
  | nil => intro _ _; rfl
  | cons e rest ih =>
    intro h s
    have he := h e (List.mem_cons_self e rest)
    have hrest : ∀ ev ∈ rest, ev.isDelTrue = false :=
      fun ev hev => h ev (List.mem_cons_of_mem e hev)
    cases e with
    | putBackup k ok =>
      cases ok with
      | false => simp only [bgCheck]; exact ih hrest s
      | true => simp only [bgCheck]; exact ih hrest _
    | deleteInstance u i ok =>
      cases ok with
      | false => simp only [bgCheck]; exact ih hrest s
      | true => exact absurd he (by simp [Event.isDelTrue])
    | listJobs em => simp only [bgCheck]; exact ih hrest s
    | getJobObject k => simp only [bgCheck]; exact ih hrest s
    | fetchSubmissions ok => simp only [bgCheck]; exact ih hrest s
    | pullImage u i im ok => simp only [bgCheck]; exact ih hrest s
    | pullInstance u i ok => simp only [bgCheck]; exact ih hrest s
    | uploadBase i ok => simp only [bgCheck]; exact ih hrest s
    | attachImage p ok => simp only [bgCheck]; exact ih hrest s
    | attachField f v ok => simp only [bgCheck]; exact ih hrest s
    | invalidFieldId f => simp only [bgCheck]; exact ih hrest s
    | deleteJobObject k ok => simp only [bgCheck]; exact ih hrest s

theorem bg_skip_neutral (req : String → String → List String) :
    ∀ (t rest : List Event) (s : List String),
      (∀ ev ∈ t, ev.isPutTrue = false ∧ ev.isDelTrue = false) →
      bgCheck req (t ++ rest) s = bgCheck req rest s := by
  intro t
  induction t with
  | nil => intro rest s _; rfl
  | cons e t' ih =>
    intro rest s h
    have he := h e (List.mem_cons_self e t')
    have ht' : ∀ ev ∈ t', ev.isPutTrue = false ∧ ev.isDelTrue = false :=
      fun ev hev => h ev (List.mem_cons_of_mem e hev)
    cases e with
    | putBackup k ok =>
      cases ok with
      | false => simp only [List.cons_append, bgCheck]; exact ih rest s ht'
      | true => exact absurd he.1 (by simp [Event.isPutTrue])
    | deleteInstance u i ok =>
      cases ok with
      | false => simp only [List.cons_append, bgCheck]; exact ih rest s ht'
      | true => exact absurd he.2 (by simp [Event.isDelTrue])
    | listJobs em => simp only [List.cons_append, bgCheck]; exact ih rest s ht'
    | getJobObject k => simp only [List.cons_append, bgCheck]; exact ih rest s ht'
    | fetchSubmissions ok => simp only [List.cons_append, bgCheck]; exact ih rest s ht'
    | pullImage u i im ok => simp only [List.cons_append, bgCheck]; exact ih rest s ht'
    | pullInstance u i ok => simp only [List.cons_append, bgCheck]; exact ih rest s ht'
    | uploadBase i ok => simp only [List.cons_append, bgCheck]; exact ih rest s ht'
    | attachImage p ok => simp only [List.cons_append, bgCheck]; exact ih rest s ht'
    | attachField f v ok => simp only [List.cons_append, bgCheck]; exact ih rest s ht'
    | invalidFieldId f => simp only [List.cons_append, bgCheck]; exact ih rest s ht'
    | deleteJobObject k ok => simp only [List.cons_append, bgCheck]; exact ih rest s ht'

theorem bg_puts (req : String → String → List String) :
    ∀ (ks : List String) (rest : List Event) (s : List String),
      bgCheck req ((ks.map fun k => Event.putBackup k true) ++ rest) s
        = bgCheck req rest (ks.reverse ++ s) := by
  intro ks
  induction ks with
  | nil => intro rest s; rfl
  | cons k ks' ih =>
    intro rest s
    simp only [List.map_cons, List.cons_append, bgCheck, List.append_eq]
    rw [ih rest (k :: s)]
    simp

/-! Stage lemmas: `pull_images`. -/

theorem pullImagesAux_frame (e : Env) (uid inst : String) :
    ∀ (imgs : List String) (s : WorldState),
      (resStateP (pullImagesAux e uid inst imgs s)).jobStore = s.jobStore
      ∧ (resStateP (pullImagesAux e uid inst imgs s)).sourceInstances = s.sourceInstances
      ∧ (resStateP (pullImagesAux e uid inst imgs s)).backup = s.backup
      ∧ (∃ t, (resStateP (pullImagesAux e uid inst imgs s)).localFiles = s.localFiles ++ t)
      ∧ (∃ δ, (resStateP (pullImagesAux e uid inst imgs s)).trace = s.trace ++ δ
          ∧ ∀ ev ∈ δ, ev.isPullImage = true) := by
  intro imgs
  induction imgs with
  | nil =>
    intro s
    exact ⟨rfl, rfl, rfl, ⟨[], by simp [pullImagesAux, resStateP]⟩,
      ⟨[], by simp [pullImagesAux, resStateP], by intro ev hev; cases hev⟩⟩
  | cons img rest ih =>
    intro s
    simp only [pullImagesAux]
    by_cases h : e.pullImageOk uid inst img
    · rw [if_pos h]
      have hstep := ih { emit s (.pullImage uid inst img true) with
        localFiles := s.localFiles ++ [(imagePath uid inst img, e.imageBytes uid inst img)] }
      cases hrec : pullImagesAux e uid inst rest { emit s (.pullImage uid inst img true) with
          localFiles := s.localFiles ++ [(imagePath uid inst img, e.imageBytes uid inst img)] } with
      | ok pr =>
        obtain ⟨s'', ps⟩ := pr
        rw [hrec] at hstep
        simp only [resStateP] at hstep ⊢
        obtain ⟨h1, h2, h3, ⟨t, h4⟩, ⟨δ, h5, h6⟩⟩ := hstep
        refine ⟨h1, h2, h3, ⟨(imagePath uid inst img, e.imageBytes uid inst img) :: t, ?_⟩,
          ⟨Event.pullImage uid inst img true :: δ, ?_, ?_⟩⟩
        · simpa using h4
        · simpa [emit] using h5
        · intro ev hev
          rcases List.mem_cons.mp hev with h' | h'
          · subst h'; rfl
          · exact h6 ev h'
      | error s'' =>
        rw [hrec] at hstep
        simp only [resStateP] at hstep ⊢
        obtain ⟨h1, h2, h3, ⟨t, h4⟩, ⟨δ, h5, h6⟩⟩ := hstep
        refine ⟨h1, h2, h3, ⟨(imagePath uid inst img, e.imageBytes uid inst img) :: t, ?_⟩,
          ⟨Event.pullImage uid inst img true :: δ, ?_, ?_⟩⟩
        · simpa using h4
        · simpa [emit] using h5
        · intro ev hev
          rcases List.mem_cons.mp hev with h' | h'
          · subst h'; rfl
          · exact h6 ev h'
    · rw [if_neg h]
      refine ⟨rfl, rfl, rfl, ⟨[], by simp [resStateP]⟩,
        ⟨[Event.pullImage uid inst img false], by simp [resStateP, emit], ?_⟩⟩
      intro ev hev
      rcases List.mem_cons.mp hev with h' | h'
      · subst h'; rfl
      · cases h'

theorem pullImagesAux_ok (e : Env) (uid inst : String) :
    ∀ (imgs : List String) (s s' : WorldState) (ps : List String),
      pullImagesAux e uid inst imgs s = .ok (s', ps) →
      ps = imgs.map (imagePath uid inst)
      ∧ s' = { s with
          localFiles := s.localFiles
            ++ imgs.map (fun im => (imagePath uid inst im, e.imageBytes uid inst im)),
          trace := s.trace ++ imgs.map (fun im => Event.pullImage uid inst im true) } := by
  intro imgs
  induction imgs with
  | nil =>
    intro s s' ps h
    simp only [pullImagesAux] at h
    injection h with h
    injection h with h1 h2
    subst h1; subst h2
    exact ⟨rfl, by simp⟩
  | cons img rest ih =>
    intro s s' ps h
    simp only [pullImagesAux] at h
    by_cases hok : e.pullImageOk uid inst img
    · rw [if_pos hok] at h
      cases hrec : pullImagesAux e uid inst rest { emit s (.pullImage uid inst img true) with
          localFiles := s.localFiles ++ [(imagePath uid inst img, e.imageBytes uid inst img)] } with
      | ok pr =>
        obtain ⟨s'', ps'⟩ := pr
        rw [hrec] at h
        injection h with h
        injection h with h1 h2
        subst h1
        obtain ⟨hps, hst⟩ := ih _ _ _ hrec
        subst h2
        constructor
        · simp [hps]
        · rw [hst]
          simp [emit]
      | error s'' => rw [hrec] at h; cases h
    · rw [if_neg hok] at h; cases h

/-! Stage lemmas: the image-backup loop of `backup_record`. -/

theorem backupImagesAux_frame (e : Env) (uid inst : String) :
    ∀ (paths : List String) (s : WorldState),
      (resState (backupImagesAux e uid inst paths s)).jobStore = s.jobStore
      ∧ (resState (backupImagesAux e uid inst paths s)).sourceInstances = s.sourceInstances
      ∧ (resState (backupImagesAux e uid inst paths s)).localFiles = s.localFiles
      ∧ (∃ t, (resState (backupImagesAux e uid inst paths s)).backup = s.backup ++ t
          ∧ ∀ kv ∈ t, ∃ p ∈ paths, kv.1 = imgKeyOfPath uid inst p)
      ∧ (∃ δ, (resState (backupImagesAux e uid inst paths s)).trace = s.trace ++ δ
          ∧ ∀ ev ∈ δ, ev.isBackupEvent = true) := by
  intro paths
  induction paths with
  | nil =>
    intro s
    exact ⟨rfl, rfl, rfl, ⟨[], by simp [backupImagesAux, resState], by intro kv hkv; cases hkv⟩,
      ⟨[], by simp [backupImagesAux, resState], by intro ev hev; cases hev⟩⟩
  | cons path rest ih =>
    intro s
    simp only [backupImagesAux]
    cases hl : lookupLast s.localFiles path with
    | none =>
      refine ⟨rfl, rfl, rfl, ⟨[], by simp [resState], by intro kv hkv; cases hkv⟩,
        ⟨[], by simp [resState], by intro ev hev; cases hev⟩⟩
    | some data =>
      dsimp only
      by_cases hput : e.putBackupOk (imgKeyOfPath uid inst path)
      · rw [if_pos hput]
        have hstep := ih { emit s (.putBackup (imgKeyOfPath uid inst path) true) with
          backup := s.backup ++ [(imgKeyOfPath uid inst path, data)] }
        obtain ⟨h1, h2, h3, ⟨t, h4, h4k⟩, ⟨δ, h5, h6⟩⟩ := hstep
        refine ⟨by simpa using h1, by simpa using h2, by simpa using h3,
          ⟨(imgKeyOfPath uid inst path, data) :: t, ?_, ?_⟩,
          ⟨Event.putBackup (imgKeyOfPath uid inst path) true :: δ, ?_, ?_⟩⟩
        · simpa using h4
        · intro kv hkv
          rcases List.mem_cons.mp hkv with h' | h'
          · subst h'; exact ⟨path, List.mem_cons_self path rest, rfl⟩
          · obtain ⟨p, hp, hpk⟩ := h4k kv h'
            exact ⟨p, List.mem_cons_of_mem path hp, hpk⟩
        · simpa [emit] using h5
        · intro ev hev
          rcases List.mem_cons.mp hev with h' | h'
          · subst h'; rfl
          · exact h6 ev h'
      · rw [if_neg hput]
        refine ⟨rfl, rfl, rfl, ⟨[], by simp [resState], by intro kv hkv; cases hkv⟩,
          ⟨[Event.putBackup (imgKeyOfPath uid inst path) false], by simp [resState, emit], ?_⟩⟩
        intro ev hev
        rcases List.mem_cons.mp hev with h' | h'
        · subst h'; rfl
        · cases h'

theorem backupImagesAux_ok (e : Env) (uid inst : String) :
    ∀ (paths : List String) (s s' : WorldState),
      backupImagesAux e uid inst paths s = .ok s' →
      s'.trace = s.trace ++ paths.map (fun p => Event.putBackup (imgKeyOfPath uid inst p) true)
      ∧ ∀ p ∈ paths, ∃ b, (imgKeyOfPath uid inst p, b) ∈ s'.backup := by
  intro paths
  induction paths with
  | nil =>
    intro s s' h
    simp only [backupImagesAux] at h
    injection h with h
    subst h
    exact ⟨by simp, by intro p hp; cases hp⟩
  | cons path rest ih =>
    intro s s' h
    simp only [backupImagesAux] at h
    cases hl : lookupLast s.localFiles path with
    | none => rw [hl] at h; cases h
    | some data =>
      rw [hl] at h
      dsimp only at h
      by_cases hput : e.putBackupOk (imgKeyOfPath uid inst path)
      · rw [if_pos hput] at h
        obtain ⟨htr, hmem⟩ := ih _ _ h
        have hframe := backupImagesAux_frame e uid inst rest
          { emit s (.putBackup (imgKeyOfPath uid inst path) true) with
            backup := s.backup ++ [(imgKeyOfPath uid inst path, data)] }
        rw [h] at hframe
        obtain ⟨_, _, _, ⟨t, h4, _⟩, _⟩ := hframe
        constructor
        · simpa [emit] using htr
        · intro p hp
          rcases List.mem_cons.mp hp with h' | h'
          · subst h'
            refine ⟨data, ?_⟩
            simp only [resState] at h4
            rw [h4]
            simp
          · exact hmem p h'
      · rw [if_neg hput] at h; cases h

/-! Stage lemmas: `backup_record`. -/

theorem backup_record_frame (e : Env) (uid : String) (r : Record) (paths : List String)
    (s : WorldState) :
    (resState (backup_record e uid r paths s)).jobStore = s.jobStore
    ∧ (resState (backup_record e uid r paths s)).sourceInstances = s.sourceInstances
    ∧ (resState (backup_record e uid r paths s)).localFiles = s.localFiles
    ∧ (∃ t, (resState (backup_record e uid r paths s)).backup = s.backup ++ t
        ∧ ∀ kv ∈ t, kv.1 = jsonKey uid r.instance_
            ∨ ∃ p ∈ paths, kv.1 = imgKeyOfPath uid r.instance_ p)
    ∧ (∃ δ, (resState (backup_record e uid r paths s)).trace = s.trace ++ δ
        ∧ ∀ ev ∈ δ, ev.isBackupEvent = true) := by
  unfold backup_record
  by_cases hpull : e.pullInstanceOk uid r.instance_
  · rw [if_pos hpull]
    by_cases hput : e.putBackupOk (jsonKey uid r.instance_)
    · rw [if_pos hput]
      have hstep := backupImagesAux_frame e uid r.instance_ paths
        { emit (emit s (.pullInstance uid r.instance_ true))
            (.putBackup (jsonKey uid r.instance_) true) with
          backup := (emit s (.pullInstance uid r.instance_ true)).backup
            ++ [(jsonKey uid r.instance_, dumps (e.instancePayload uid r.instance_))] }
      obtain ⟨h1, h2, h3, ⟨t, h4, h4k⟩, ⟨δ, h5, h6⟩⟩ := hstep
      refine ⟨by simpa using h1, by simpa using h2, by simpa using h3,
        ⟨(jsonKey uid r.instance_, dumps (e.instancePayload uid r.instance_)) :: t, ?_, ?_⟩,
        ⟨Event.pullInstance uid r.instance_ true
          :: Event.putBackup (jsonKey uid r.instance_) true :: δ, ?_, ?_⟩⟩
      · simpa using h4
      · intro kv hkv
        rcases List.mem_cons.mp hkv with h' | h'
        · subst h'; exact Or.inl rfl
        · rcases h4k kv h' with ⟨p, hp, hpk⟩
          exact Or.inr ⟨p, hp, hpk⟩
      · simpa [emit] using h5
      · intro ev hev
        rcases List.mem_cons.mp hev with h' | h'
        · subst h'; rfl
        · rcases List.mem_cons.mp h' with h'' | h''
          · subst h''; rfl
          · exact h6 ev h''
    · rw [if_neg hput]
      refine ⟨rfl, rfl, rfl, ⟨[], by simp [resState], by intro kv hkv; cases hkv⟩,
        ⟨[Event.pullInstance uid r.instance_ true,
          Event.putBackup (jsonKey uid r.instance_) false], by simp [resState, emit], ?_⟩⟩
      intro ev hev
      rcases List.mem_cons.mp hev with h' | h'
      · subst h'; rfl
      · rcases List.mem_cons.mp h' with h'' | h''
        · subst h''; rfl
        · cases h''
  · rw [if_neg hpull]
    refine ⟨rfl, rfl, rfl, ⟨[], by simp [resState], by intro kv hkv; cases hkv⟩,
      ⟨[Event.pullInstance uid r.instance_ false], by simp [resState, emit], ?_⟩⟩
    intro ev hev
    rcases List.mem_cons.mp hev with h' | h'
    · subst h'; rfl
    · cases h'

theorem backup_record_ok (e : Env) (uid : String) (r : Record) (paths : List String)
    (s s' : WorldState) (h : backup_record e uid r paths s = .ok s') :
    s'.trace = s.trace
      ++ Event.pullInstance uid r.instance_ true
      :: Event.putBackup (jsonKey uid r.instance_) true
      :: paths.map (fun p => Event.putBackup (imgKeyOfPath uid r.instance_ p) true)
    ∧ lookupLast s'.backup (jsonKey uid r.instance_)
        = some (dumps (e.instancePayload uid r.instance_))
    ∧ ∀ p ∈ paths, ∃ b, (imgKeyOfPath uid r.instance_ p, b) ∈ s'.backup := by
  unfold backup_record at h
  by_cases hpull : e.pullInstanceOk uid r.instance_
  · rw [if_pos hpull] at h
    by_cases hput : e.putBackupOk (jsonKey uid r.instance_)
    · rw [if_pos hput] at h
      obtain ⟨htr, hmem⟩ := backupImagesAux_ok e uid r.instance_ _ _ _ h
      have hframe := backupImagesAux_frame e uid r.instance_ paths
        { emit (emit s (.pullInstance uid r.instance_ true))
            (.putBackup (jsonKey uid r.instance_) true) with
          backup := (emit s (.pullInstance uid r.instance_ true)).backup
            ++ [(jsonKey uid r.instance_, dumps (e.instancePayload uid r.instance_))] }
      rw [h] at hframe
      obtain ⟨_, _, _, ⟨t, h4, h4k⟩, _⟩ := hframe
      refine ⟨by simpa [emit] using htr, ?_, hmem⟩
      simp only [resState] at h4
      have hb : s'.backup = (s.backup
          ++ [(jsonKey uid r.instance_, dumps (e.instancePayload uid r.instance_))]) ++ t := by
        simpa [emit] using h4
      have hne : ∀ kv ∈ t, kv.1 ≠ jsonKey uid r.instance_ := by
        intro kv hkv
        rcases h4k kv hkv with ⟨p, _, hpk⟩
        rw [hpk]
        intro hh
        exact jsonKey_ne_imgKey uid r.instance_ uid r.instance_ p hh.symm
      rw [hb, lookupLast_append_notin _ t _ hne, lookupLast_append_singleton]
    · rw [if_neg hput] at h; cases h
  · rw [if_neg hpull] at h; cases h

/-! Stage lemmas: `upload_to_inat`. -/

theorem attachImagesAux_frame (e : Env) :
    ∀ (paths : List String) (s : WorldState),
      (resState (attachImagesAux e paths s)).jobStore = s.jobStore
      ∧ (resState (attachImagesAux e paths s)).sourceInstances = s.sourceInstances
      ∧ (resState (attachImagesAux e paths s)).backup = s.backup
      ∧ (resState (attachImagesAux e paths s)).localFiles = s.localFiles
      ∧ (∃ δ, (resState (attachImagesAux e paths s)).trace = s.trace ++ δ
          ∧ ∀ ev ∈ δ, ev.isUploadEvent = true) := by
  intro paths
  induction paths with
  | nil =>
    intro s
    exact ⟨rfl, rfl, rfl, rfl, ⟨[], by simp [attachImagesAux, resState], by intro ev hev; cases hev⟩⟩
  | cons path rest ih =>
    intro s
    simp only [attachImagesAux]
    by_cases h : e.attachImageOk path
    · rw [if_pos h]
      obtain ⟨h1, h2, h3, h4, ⟨δ, h5, h6⟩⟩ := ih (emit s (.attachImage path true))
      refine ⟨by simpa using h1, by simpa using h2, by simpa using h3, by simpa using h4,
        ⟨Event.attachImage path true :: δ, by simpa [emit] using h5, ?_⟩⟩
      intro ev hev
      rcases List.mem_cons.mp hev with h' | h'
      · subst h'; rfl
      · exact h6 ev h'
    · rw [if_neg h]
      refine ⟨rfl, rfl, rfl, rfl,
        ⟨[Event.attachImage path false], by simp [resState, emit], ?_⟩⟩
      intro ev hev
      rcases List.mem_cons.mp hev with h' | h'
      · subst h'; rfl
      · cases h'

theorem attachImagesAux_ok (e : Env) :
    ∀ (paths : List String) (s s' : WorldState),
      attachImagesAux e paths s = .ok s' →
      s' = { s with trace := s.trace ++ paths.map (fun p => Event.attachImage p true) } := by
  intro paths
  induction paths with
  | nil =>
    intro s s' h
    simp only [attachImagesAux] at h
    injection h with h
    subst h
    simp
  | cons path rest ih =>
    intro s s' h
    simp only [attachImagesAux] at h
    by_cases hok : e.attachImageOk path
    · rw [if_pos hok] at h
      rw [ih _ _ h]
      simp [emit]
    · rw [if_neg hok] at h; cases h

theorem attachFieldsAux_frame (e : Env) :
    ∀ (fields : List (String × String)) (s : WorldState),
      (resState (attachFieldsAux e fields s)).jobStore = s.jobStore
      ∧ (resState (attachFieldsAux e fields s)).sourceInstances = s.sourceInstances
      ∧ (resState (attachFieldsAux e fields s)).backup = s.backup
      ∧ (resState (attachFieldsAux e fields s)).localFiles = s.localFiles
      ∧ (∃ δ, (resState (attachFieldsAux e fields s)).trace = s.trace ++ δ
          ∧ ∀ ev ∈ δ, ev.isUploadEvent = true) := by
  intro fields
  induction fields with
  | nil =>
    intro s
    exact ⟨rfl, rfl, rfl, rfl, ⟨[], by simp [attachFieldsAux, resState], by intro ev hev; cases hev⟩⟩
  | cons kv rest ih =>
    intro s
    obtain ⟨fid, v⟩ := kv
    simp only [attachFieldsAux]
    cases hint : strToInt fid with
    | none =>
      refine ⟨rfl, rfl, rfl, rfl,
        ⟨[Event.invalidFieldId fid], by simp [resState, emit], ?_⟩⟩
      intro ev hev
      rcases List.mem_cons.mp hev with h' | h'
      · subst h'; rfl
      · cases h'
    | some n =>
      dsimp only
      by_cases h : e.attachFieldOk n v
      · rw [if_pos h]
        obtain ⟨h1, h2, h3, h4, ⟨δ, h5, h6⟩⟩ := ih (emit s (.attachField n v true))
        refine ⟨by simpa using h1, by simpa using h2, by simpa using h3, by simpa using h4,
          ⟨Event.attachField n v true :: δ, by simpa [emit] using h5, ?_⟩⟩
        intro ev hev
        rcases List.mem_cons.mp hev with h' | h'
        · subst h'; rfl
        · exact h6 ev h'
      · rw [if_neg h]
        refine ⟨rfl, rfl, rfl, rfl,
          ⟨[Event.attachField n v false], by simp [resState, emit], ?_⟩⟩
        intro ev hev
        rcases List.mem_cons.mp hev with h' | h'
        · subst h'; rfl
        · cases h'

theorem attachFieldsAux_ok (e : Env) :
    ∀ (fields : List (String × String)) (s s' : WorldState),
      attachFieldsAux e fields s = .ok s' →
      ∃ δ, s' = { s with trace := s.trace ++ δ } ∧ ∀ ev ∈ δ, ev.isOkUpload = true := by
  intro fields
  induction fields with
  | nil =>
    intro s s' h
    simp only [attachFieldsAux] at h
    injection h with h
    subst h
    exact ⟨[], by simp, by intro ev hev; cases hev⟩
  | cons kv rest ih =>
    intro s s' h
    obtain ⟨fid, v⟩ := kv
    simp only [attachFieldsAux] at h
    cases hint : strToInt fid with
    | none => rw [hint] at h; cases h
    | some n =>
      rw [hint] at h
      dsimp only at h
      by_cases hok : e.attachFieldOk n v
      · rw [if_pos hok] at h
        obtain ⟨δ, hδ, hall⟩ := ih _ _ h
        refine ⟨Event.attachField n v true :: δ, ?_, ?_⟩
        · rw [hδ]; simp [emit]
        · intro ev hev
          rcases List.mem_cons.mp hev with h' | h'
          · subst h'; rfl
          · exact hall ev h'
      · rw [if_neg hok] at h; cases h

theorem upload_to_inat_frame (e : Env) (r : Record) (paths : List String) (s : WorldState) :
    (resState (upload_to_inat e r paths s)).jobStore = s.jobStore
    ∧ (resState (upload_to_inat e r paths s)).sourceInstances = s.sourceInstances
    ∧ (resState (upload_to_inat e r paths s)).backup = s.backup
    ∧ (resState (upload_to_inat e r paths s)).localFiles = s.localFiles
    ∧ (∃ δ, (resState (upload_to_inat e r paths s)).trace = s.trace ++ δ
        ∧ ∀ ev ∈ δ, ev.isUploadEvent = true) := by
  unfold upload_to_inat
  by_cases hbase : e.uploadBaseOk r
  · rw [if_pos hbase]
    cases hatt : attachImagesAux e paths (emit s (.uploadBase r.instance_ true)) with
    | error s₁ =>
      have hframe := attachImagesAux_frame e paths (emit s (.uploadBase r.instance_ true))
      rw [hatt] at hframe
      simp only [resState] at hframe
      obtain ⟨h1, h2, h3, h4, ⟨δ, h5, h6⟩⟩ := hframe
      refine ⟨by simpa using h1, by simpa using h2, by simpa using h3, by simpa using h4,
        ⟨Event.uploadBase r.instance_ true :: δ, by simpa [emit] using h5, ?_⟩⟩
      intro ev hev
      rcases List.mem_cons.mp hev with h' | h'
      · subst h'; rfl
      · exact h6 ev h'
    | ok s₁ =>
      have hframe := attachImagesAux_frame e paths (emit s (.uploadBase r.instance_ true))
      rw [hatt] at hframe
      simp only [resState] at hframe
      obtain ⟨h1, h2, h3, h4, ⟨δ, h5, h6⟩⟩ := hframe
      obtain ⟨g1, g2, g3, g4, ⟨δ', g5, g6⟩⟩ := attachFieldsAux_frame e r.observation_fields s₁
      refine ⟨by rw [g1]; simpa using h1, by rw [g2]; simpa using h2,
        by rw [g3]; simpa using h3, by rw [g4]; simpa using h4,
        ⟨Event.uploadBase r.instance_ true :: (δ ++ δ'), ?_, ?_⟩⟩
      · rw [g5, h5]; simp [emit]
      · intro ev hev
        rcases List.mem_cons.mp hev with h' | h'
        · subst h'; rfl
        · rcases List.mem_append.mp h' with h'' | h''
          · exact h6 ev h''
          · exact g6 ev h''
  · rw [if_neg hbase]
    refine ⟨rfl, rfl, rfl, rfl,
      ⟨[Event.uploadBase r.instance_ false], by simp [resState, emit], ?_⟩⟩
    intro ev hev
    rcases List.mem_cons.mp hev with h' | h'
    · subst h'; rfl
    · cases h'

theorem upload_to_inat_ok (e : Env) (r : Record) (paths : List String) (s s' : WorldState)
    (h : upload_to_inat e r paths s = .ok s') :
    ∃ δ, s' = { s with trace := s.trace ++ δ } ∧ ∀ ev ∈ δ, ev.isOkUpload = true := by
  unfold upload_to_inat at h
  by_cases hbase : e.uploadBaseOk r
  · rw [if_pos hbase] at h
    cases hatt : attachImagesAux e paths (emit s (.uploadBase r.instance_ true)) with
    | error s₁ => rw [hatt] at h; cases h
    | ok s₁ =>
      rw [hatt] at h
      have h₁ := attachImagesAux_ok e paths _ _ hatt
      obtain ⟨δ, hδ, hall⟩ := attachFieldsAux_ok e r.observation_fields s₁ s' h
      refine ⟨Event.uploadBase r.instance_ true
        :: (paths.map (fun p => Event.attachImage p true) ++ δ), ?_, ?_⟩
      · rw [hδ, h₁]; simp [emit]
      · intro ev hev
        rcases List.mem_cons.mp hev with h' | h'
        · subst h'; rfl
        · rcases List.mem_append.mp h' with h'' | h''
          · obtain ⟨p, _, hp⟩ := List.mem_map.mp h''
            subst hp; rfl
          · exact hall ev h''
  · rw [if_neg hbase] at h; cases h

/-! Classifier implication lemmas. -/

theorem isPullImage_props (ev : Event) (h : ev.isPullImage = true) :
    ev.isRecordEvent = true ∧ ev.isPutTrue = false ∧ ev.isDelTrue = false
    ∧ ev.isDeleteJob = false := by
  cases ev <;> simp_all [Event.isPullImage, Event.isRecordEvent, Event.isPutTrue,
    Event.isDelTrue, Event.isDeleteJob]

theorem isBackupEvent_props (ev : Event) (h : ev.isBackupEvent = true) :
    ev.isRecordEvent = true ∧ ev.isDelTrue = false ∧ ev.isDeleteJob = false := by
  cases ev <;> simp_all [Event.isBackupEvent, Event.isRecordEvent,
    Event.isDelTrue, Event.isDeleteJob]

theorem isUploadEvent_props (ev : Event) (h : ev.isUploadEvent = true) :
    ev.isRecordEvent = true ∧ ev.isPutTrue = false ∧ ev.isDelTrue = false
    ∧ ev.isDeleteJob = false := by
  cases ev <;> simp_all [Event.isUploadEvent, Event.isRecordEvent, Event.isPutTrue,
    Event.isDelTrue, Event.isDeleteJob]

theorem isOkUpload_props (ev : Event) (h : ev.isOkUpload = true) :
    ev.isUploadEvent = true ∧ ev.isRecordFailure = false := by
  cases ev with
  | uploadBase i ok => cases ok <;> simp_all [Event.isOkUpload, Event.isUploadEvent,
      Event.isRecordFailure]
  | attachImage p ok => cases ok <;> simp_all [Event.isOkUpload, Event.isUploadEvent,
      Event.isRecordFailure]
  | attachField f v ok => cases ok <;> simp_all [Event.isOkUpload, Event.isUploadEvent,
      Event.isRecordFailure]
  | _ => simp_all [Event.isOkUpload]

theorem isRecordEvent_not_deleteJob (ev : Event) (h : ev.isRecordEvent = true) :
    ev.isDeleteJob = false := by
  cases ev <;> simp_all [Event.isRecordEvent, Event.isDeleteJob]

/-! Master lemmas for the per-record pipeline step. -/

theorem process_record_ok (e : Env) (uid : String) (r : Record) (s s' : WorldState)
    (h : process_record e uid r s = .ok s') :
    s'.jobStore = s.jobStore
    ∧ s'.sourceInstances = s.sourceInstances.erase (uid, r.instance_)
    ∧ lookupLast s'.backup (jsonKey uid r.instance_)
        = some (dumps (e.instancePayload uid r.instance_))
    ∧ (∀ img ∈ r.images, ∃ b,
        (imgKeyOfPath uid r.instance_ (imagePath uid r.instance_ img), b) ∈ s'.backup)
    ∧ s'.localFiles = s.localFiles
        ++ r.images.map (fun im => (imagePath uid r.instance_ im, e.imageBytes uid r.instance_ im))
    ∧ ∃ δ, s'.trace = s.trace ++ δ
        ∧ (∀ ev ∈ δ, ev.isRecordEvent = true ∧ ev.isRecordFailure = false)
        ∧ Event.deleteInstance uid r.instance_ true ∈ δ
        ∧ ∀ (req : String → String → List String),
            (∀ k ∈ req uid r.instance_,
              k = jsonKey uid r.instance_ ∨ k ∈ imgBackupKeys uid r) →
            bgCheck req δ [] = true := by
  unfold process_record at h
  cases hp : pull_images e uid r s with
  | error s₁ => rw [hp] at h; cases h
  | ok pr =>
    obtain ⟨s₁, paths⟩ := pr
    rw [hp] at h
    dsimp only at h
    cases hb : backup_record e uid r paths s₁ with
    | error s₂ => rw [hb] at h; cases h
    | ok s₂ =>
      rw [hb] at h
      dsimp only at h
      cases hu : upload_to_inat e r paths s₂ with
      | error s₃ => rw [hu] at h; cases h
      | ok s₃ =>
        rw [hu] at h
        dsimp only at h
        by_cases hdel : e.deleteInstanceOk uid r.instance_
        · rw [if_pos hdel] at h
          injection h with h
          subst h
          rw [show pull_images e uid r s = pullImagesAux e uid r.instance_ r.images s
            from rfl] at hp
          obtain ⟨hps, hs₁⟩ := pullImagesAux_ok e uid r.instance_ r.images s s₁ paths hp
          obtain ⟨hbt, hbl, hbi⟩ := backup_record_ok e uid r paths s₁ s₂ hb
          have hbf := backup_record_frame e uid r paths s₁
          rw [hb] at hbf
          simp only [resState] at hbf
          obtain ⟨hbjob, hbsrc, hblf, _, _⟩ := hbf
          obtain ⟨δu, hs₃, hδu⟩ := upload_to_inat_ok e r paths s₂ s₃ hu
          subst hps
          refine ⟨?_, ?_, ?_, ?_, ?_, ?_⟩
          · simp only [emit_jobStore]
            rw [hs₃]
            rw [hbjob, hs₁]
          · simp only [emit_sourceInstances]
            rw [hs₃]
            rw [hbsrc, hs₁]
          · simp only [emit_backup]
            rw [hs₃]
            exact hbl
          · intro img himg
            simp only [emit_backup]
            rw [hs₃]
            exact hbi (imagePath uid r.instance_ img) (List.mem_map_of_mem _ himg)
          · simp only [emit_localFiles]
            rw [hs₃]
            rw [hblf, hs₁]
          · refine ⟨(r.images.map fun im => Event.pullImage uid r.instance_ im true)
              ++ ((Event.pullInstance uid r.instance_ true
                :: Event.putBackup (jsonKey uid r.instance_) true
                :: (r.images.map (imagePath uid r.instance_)).map
                    (fun p => Event.putBackup (imgKeyOfPath uid r.instance_ p) true))
              ++ (δu ++ [Event.deleteInstance uid r.instance_ true])), ?_, ?_, ?_, ?_⟩
            · simp only [emit_trace]
              rw [hs₃]
              simp only [hbt]
              rw [hs₁]
              simp [List.append_assoc]
            · intro ev hev
              rcases List.mem_append.mp hev with h1 | h1
              · obtain ⟨im, _, him⟩ := List.mem_map.mp h1
                subst him; exact ⟨rfl, rfl⟩
              · rcases List.mem_append.mp h1 with h2 | h2
                · rcases List.mem_cons.mp h2 with h3 | h3
                  · subst h3; exact ⟨rfl, rfl⟩
                  · rcases List.mem_cons.mp h3 with h4 | h4
                    · subst h4; exact ⟨rfl, rfl⟩
                    · obtain ⟨p, _, hp'⟩ := List.mem_map.mp h4
                      subst hp'; exact ⟨rfl, rfl⟩
                · rcases List.mem_append.mp h2 with h5 | h5
                  · obtain ⟨hq1, hq2⟩ := isOkUpload_props ev (hδu ev h5)
                    exact ⟨(isUploadEvent_props ev hq1).1, hq2⟩
                  · rcases List.mem_cons.mp h5 with h6 | h6
                    · subst h6; exact ⟨rfl, rfl⟩
                    · cases h6
            · simp
            · intro req hreq
              rw [bg_skip_neutral req _ _ [] ?hn1]
              case hn1 =>
                intro ev hev
                obtain ⟨im, _, him⟩ := List.mem_map.mp hev
                subst him
                exact ⟨rfl, rfl⟩
              simp only [List.cons_append, bgCheck]
              rw [show (r.images.map (imagePath uid r.instance_)).map
                  (fun p => Event.putBackup (imgKeyOfPath uid r.instance_ p) true)
                = ((r.images.map (imagePath uid r.instance_)).map
                    (imgKeyOfPath uid r.instance_)).map
                    (fun k => Event.putBackup k true) by simp [List.map_map]]
              simp only [List.append_eq]
              rw [bg_puts]
              rw [bg_skip_neutral req δu _ _ ?hn2]
              case hn2 =>
                intro ev hev
                obtain ⟨h1, _⟩ := isOkUpload_props ev (hδu ev hev)
                obtain ⟨_, h2, h3, _⟩ := isUploadEvent_props ev h1
                exact ⟨h2, h3⟩
              simp only [bgCheck, Bool.and_eq_true]
              refine ⟨?_, trivial⟩
              rw [List.all_eq_true]
              intro k hk
              rcases hreq k hk with hkey | hkey
              · subst hkey
                exact List.elem_iff.mpr (List.mem_append.mpr (Or.inr (by simp)))
              · refine List.elem_iff.mpr (List.mem_append.mpr (Or.inl ?_))
                rw [List.mem_reverse]
                simpa [imgBackupKeys, List.map_map] using hkey
        · rw [if_neg hdel] at h; cases h

theorem process_record_err (e : Env) (uid : String) (r : Record) (s s' : WorldState)
    (h : process_record e uid r s = .error s') :
    s'.jobStore = s.jobStore
    ∧ s'.sourceInstances = s.sourceInstances
    ∧ (∃ t, s'.backup = s.backup ++ t)
    ∧ (∃ t, s'.localFiles = s.localFiles ++ t)
    ∧ ∃ δ, s'.trace = s.trace ++ δ
        ∧ (∀ ev ∈ δ, ev.isRecordEvent = true)
        ∧ (∀ ev ∈ δ, ev.isDelTrue = false) := by
  unfold process_record at h
  cases hp : pull_images e uid r s with
  | error s₁ =>
    rw [hp] at h
    injection h with h
    subst h
    have hpf := pullImagesAux_frame e uid r.instance_ r.images s
    rw [show pull_images e uid r s = pullImagesAux e uid r.instance_ r.images s
      from rfl] at hp
    rw [hp] at hpf
    simp only [resStateP] at hpf
    obtain ⟨h1, h2, h3, ⟨t, h4⟩, ⟨δ, h5, h6⟩⟩ := hpf
    exact ⟨h1, h2, ⟨[], by simp [h3]⟩, ⟨t, h4⟩, ⟨δ, h5,
      fun ev hev => (isPullImage_props ev (h6 ev hev)).1,
      fun ev hev => (isPullImage_props ev (h6 ev hev)).2.2.1⟩⟩
  | ok pr =>
    obtain ⟨s₁, paths⟩ := pr
    rw [hp] at h
    dsimp only at h
    rw [show pull_images e uid r s = pullImagesAux e uid r.instance_ r.images s
      from rfl] at hp
    obtain ⟨hps, hs₁⟩ := pullImagesAux_ok e uid r.instance_ r.images s s₁ paths hp
    cases hb : backup_record e uid r paths s₁ with
    | error s₂ =>
      rw [hb] at h
      injection h with h
      subst h
      have hbf := backup_record_frame e uid r paths s₁
      rw [hb] at hbf
      simp only [resState] at hbf
      obtain ⟨h1, h2, h3, ⟨t, h4, _⟩, ⟨δ, h5, h6⟩⟩ := hbf
      refine ⟨by rw [h1, hs₁], by rw [h2, hs₁], ⟨t, by rw [h4, hs₁]⟩,
        ⟨r.images.map (fun im => (imagePath uid r.instance_ im, e.imageBytes uid r.instance_ im)),
          by rw [h3, hs₁]⟩,
        ⟨(r.images.map fun im => Event.pullImage uid r.instance_ im true) ++ δ, ?_, ?_, ?_⟩⟩
      · rw [h5, hs₁]; simp
      · intro ev hev
        rcases List.mem_append.mp hev with h' | h'
        · obtain ⟨im, _, him⟩ := List.mem_map.mp h'
          subst him; rfl
        · exact (isBackupEvent_props ev (h6 ev h')).1
      · intro ev hev
        rcases List.mem_append.mp hev with h' | h'
        · obtain ⟨im, _, him⟩ := List.mem_map.mp h'
          subst him; rfl
        · exact (isBackupEvent_props ev (h6 ev h')).2.1
    | ok s₂ =>
      rw [hb] at h
      dsimp only at h
      obtain ⟨hbt, _, _⟩ := backup_record_ok e uid r paths s₁ s₂ hb
      have hbf := backup_record_frame e uid r paths s₁
      rw [hb] at hbf
      simp only [resState] at hbf
      obtain ⟨hbjob, hbsrc, hblf, ⟨tb, hbback, _⟩, _⟩ := hbf
      cases hu : upload_to_inat e r paths s₂ with
      | error s₃ =>
        rw [hu] at h
        injection h with h
        subst h
        have huf := upload_to_inat_frame e r paths s₂
        rw [hu] at huf
        simp only [resState] at huf
        obtain ⟨h1, h2, h3, h4, ⟨δ, h5, h6⟩⟩ := huf
        refine ⟨by rw [h1, hbjob, hs₁], by rw [h2, hbsrc, hs₁],
          ⟨tb, by rw [h3, hbback, hs₁]⟩,
          ⟨r.images.map (fun im => (imagePath uid r.instance_ im, e.imageBytes uid r.instance_ im)),
            by rw [h4, hblf, hs₁]⟩,
          ⟨(r.images.map fun im => Event.pullImage uid r.instance_ im true)
            ++ ((Event.pullInstance uid r.instance_ true
              :: Event.putBackup (jsonKey uid r.instance_) true
              :: paths.map (fun p => Event.putBackup (imgKeyOfPath uid r.instance_ p) true))
            ++ δ), ?_, ?_, ?_⟩⟩
        · rw [h5, hbt, hs₁]; simp [List.append_assoc]
        · intro ev hev
          rcases List.mem_append.mp hev with h1 | h1
          · obtain ⟨im, _, him⟩ := List.mem_map.mp h1
            subst him; rfl
          · rcases List.mem_append.mp h1 with h2 | h2
            · rcases List.mem_cons.mp h2 with h3 | h3
              · subst h3; rfl
              · rcases List.mem_cons.mp h3 with h4 | h4
                · subst h4; rfl
                · obtain ⟨p, _, hp'⟩ := List.mem_map.mp h4
                  subst hp'; rfl
            · exact (isUploadEvent_props ev (h6 ev h2)).1
        · intro ev hev
          rcases List.mem_append.mp hev with h1 | h1
          · obtain ⟨im, _, him⟩ := List.mem_map.mp h1
            subst him; rfl
          · rcases List.mem_append.mp h1 with h2 | h2
            · rcases List.mem_cons.mp h2 with h3 | h3
              · subst h3; rfl
              · rcases List.mem_cons.mp h3 with h4 | h4
                · subst h4; rfl
                · obtain ⟨p, _, hp'⟩ := List.mem_map.mp h4
                  subst hp'; rfl
            · exact (isUploadEvent_props ev (h6 ev h2)).2.2.1
      | ok s₃ =>
        rw [hu] at h
        dsimp only at h
        obtain ⟨δu, hs₃, hδu⟩ := upload_to_inat_ok e r paths s₂ s₃ hu
        by_cases hdel : e.deleteInstanceOk uid r.instance_
        · rw [if_pos hdel] at h; cases h
        · rw [if_neg hdel] at h
          injection h with h
          subst h
          refine ⟨?_, ?_, ⟨tb, ?_⟩, ⟨r.images.map
              (fun im => (imagePath uid r.instance_ im, e.imageBytes uid r.instance_ im)), ?_⟩,
            ⟨(r.images.map fun im => Event.pullImage uid r.instance_ im true)
              ++ ((Event.pullInstance uid r.instance_ true
                :: Event.putBackup (jsonKey uid r.instance_) true
                :: paths.map (fun p => Event.putBackup (imgKeyOfPath uid r.instance_ p) true))
              ++ (δu ++ [Event.deleteInstance uid r.instance_ false])), ?_, ?_, ?_⟩⟩
          · simp only [emit_jobStore]
            rw [hs₃, hbjob, hs₁]
          · simp only [emit_sourceInstances]
            rw [hs₃, hbsrc, hs₁]
          · simp only [emit_backup]
            rw [hs₃, hbback, hs₁]
          · simp only [emit_localFiles]
            rw [hs₃, hblf, hs₁]
          · simp only [emit_trace]
            rw [hs₃]
            simp only [hbt]
            rw [hs₁]
            simp [List.append_assoc]
          · intro ev hev
            rcases List.mem_append.mp hev with h1 | h1
            · obtain ⟨im, _, him⟩ := List.mem_map.mp h1
              subst him; rfl
            · rcases List.mem_append.mp h1 with h2 | h2
              · rcases List.mem_cons.mp h2 with h3 | h3
                · subst h3; rfl
                · rcases List.mem_cons.mp h3 with h4 | h4
                  · subst h4; rfl
                  · obtain ⟨p, _, hp'⟩ := List.mem_map.mp h4
                    subst hp'; rfl
              · rcases List.mem_append.mp h2 with h5 | h5
                · exact (isUploadEvent_props ev (isOkUpload_props ev (hδu ev h5)).1).1
                · rcases List.mem_cons.mp h5 with h6 | h6
                  · subst h6; rfl
                  · cases h6
          · intro ev hev
            rcases List.mem_append.mp hev with h1 | h1
            · obtain ⟨im, _, him⟩ := List.mem_map.mp h1
              subst him; rfl
            · rcases List.mem_append.mp h1 with h2 | h2
              · rcases List.mem_cons.mp h2 with h3 | h3
                · subst h3; rfl
                · rcases List.mem_cons.mp h3 with h4 | h4
                  · subst h4; rfl
                  · obtain ⟨p, _, hp'⟩ := List.mem_map.mp h4
                    subst hp'; rfl
              · rcases List.mem_append.mp h2 with h5 | h5
                · exact (isUploadEvent_props ev (isOkUpload_props ev (hδu ev h5)).1).2.2.1
                · rcases List.mem_cons.mp h5 with h6 | h6
                  · subst h6; rfl
                  · cases h6

/-! Lemmas for the record loop and the descriptor-deletion loop of `main`. -/

theorem run_records_cons_err (e : Env) (uid : String) (r : Record) (rest : List Record)
    (s s' : WorldState) (h : process_record e uid r s = .error s') :
    run_records e uid (r :: rest) s = .error s' := by
  simp [run_records, h]

theorem run_records_ok (e : Env) (uid : String) :
    ∀ (recs : List Record) (s s' : WorldState),
      run_records e uid recs s = .ok s' →
      s'.jobStore = s.jobStore
      ∧ (∃ δ, s'.trace = s.trace ++ δ
          ∧ ∀ ev ∈ δ, ev.isRecordEvent = true ∧ ev.isRecordFailure = false)
      ∧ ∀ r ∈ recs, Event.deleteInstance uid r.instance_ true ∈ s'.trace := by
  intro recs
  induction recs with
  | nil =>
    intro s s' h
    simp only [run_records] at h
    injection h with h
    subst h
    exact ⟨rfl, ⟨[], by simp, by intro ev hev; cases hev⟩, by intro r hr; cases hr⟩
  | cons r rest ih =>
    intro s s' h
    simp only [run_records] at h
    cases hpr : process_record e uid r s with
    | error s₁ => rw [hpr] at h; cases h
    | ok s₁ =>
      rw [hpr] at h
      obtain ⟨hjob, ⟨δ, htr, hδ⟩, hdel⟩ := ih s₁ s' h
      obtain ⟨pjob, _, _, _, _, ⟨δ₀, ptr, pδ, pdel, _⟩⟩ := process_record_ok e uid r s s₁ hpr
      refine ⟨by rw [hjob, pjob], ⟨δ₀ ++ δ, by rw [htr, ptr]; simp, ?_⟩, ?_⟩
      · intro ev hev
        rcases List.mem_append.mp hev with h' | h'
        · exact pδ ev h'
        · exact hδ ev h'
      · intro r' hr'
        rcases List.mem_cons.mp hr' with h' | h'
        · subst h'
          rw [htr, ptr]
          exact List.mem_append.mpr (Or.inl (List.mem_append.mpr (Or.inr pdel)))
        · exact hdel r' h'

theorem run_records_err (e : Env) (uid : String) :
    ∀ (recs : List Record) (s s' : WorldState),
      run_records e uid recs s = .error s' →
      s'.jobStore = s.jobStore
      ∧ ∃ δ, s'.trace = s.trace ++ δ ∧ ∀ ev ∈ δ, ev.isRecordEvent = true := by
  intro recs
  induction recs with
  | nil => intro s s' h; cases h
  | cons r rest ih =>
    intro s s' h
    simp only [run_records] at h
    cases hpr : process_record e uid r s with
    | error s₁ =>
      rw [hpr] at h
      injection h with h
      subst h
      obtain ⟨hjob, _, _, _, ⟨δ, htr, hδ, _⟩⟩ := process_record_err e uid r s s₁ hpr
      exact ⟨hjob, ⟨δ, htr, hδ⟩⟩
    | ok s₁ =>
      rw [hpr] at h
      obtain ⟨hjob, ⟨δ, htr, hδ⟩⟩ := ih s₁ s' h
      obtain ⟨pjob, _, _, _, _, ⟨δ₀, ptr, pδ, _, _⟩⟩ := process_record_ok e uid r s s₁ hpr
      refine ⟨by rw [hjob, pjob], ⟨δ₀ ++ δ, by rw [htr, ptr]; simp, ?_⟩⟩
      intro ev hev
      rcases List.mem_append.mp hev with h' | h'
      · exact (pδ ev h').1
      · exact hδ ev h'

theorem run_records_bg (e : Env) (uid : String) :
    ∀ (recs : List Record) (s : WorldState),
      bgCheck dabReq s.trace [] = true →
      bgCheck dabReq (resState (run_records e uid recs s)).trace [] = true := by
  intro recs
  induction recs with
  | nil => intro s h; simpa [run_records, resState] using h
  | cons r rest ih =>
    intro s h
    simp only [run_records]
    cases hpr : process_record e uid r s with
    | error s₁ =>
      obtain ⟨_, _, _, _, ⟨δ, htr, _, hnd⟩⟩ := process_record_err e uid r s s₁ hpr
      simp only [resState]
      rw [htr]
      exact bg_append dabReq _ _ _ h (bg_of_no_del dabReq δ hnd [])
    | ok s₁ =>
      refine ih s₁ ?_
      obtain ⟨_, _, _, _, _, ⟨δ, htr, _, _, hbg⟩⟩ := process_record_ok e uid r s s₁ hpr
      rw [htr]
      refine bg_append dabReq _ _ _ h (hbg dabReq ?_)
      intro k hk
      rcases List.mem_cons.mp hk with h' | h'
      · exact Or.inl h'
      · cases h'

theorem delete_objects_frame (e : Env) :
    ∀ (keys : List String) (s : WorldState),
      (resState (delete_objects e keys s)).sourceInstances = s.sourceInstances
      ∧ (resState (delete_objects e keys s)).backup = s.backup
      ∧ (resState (delete_objects e keys s)).localFiles = s.localFiles
      ∧ ∃ δ, (resState (delete_objects e keys s)).trace = s.trace ++ δ
          ∧ ∀ ev ∈ δ, ev.isDeleteJob = true := by
  intro keys
  induction keys with
  | nil =>
    intro s
    exact ⟨rfl, rfl, rfl, ⟨[], by simp [delete_objects, resState], by intro ev hev; cases hev⟩⟩
  | cons k rest ih =>
    intro s
    simp only [delete_objects]
    by_cases h : e.deleteJobObjectOk k
    · rw [if_pos h]
      obtain ⟨h1, h2, h3, ⟨δ, h5, h6⟩⟩ := ih { emit s (.deleteJobObject k true) with
        jobStore := s.jobStore.filter (fun kv => kv.1 ≠ k) }
      refine ⟨by simpa using h1, by simpa using h2, by simpa using h3,
        ⟨Event.deleteJobObject k true :: δ, by simpa [emit] using h5, ?_⟩⟩
      intro ev hev
      rcases List.mem_cons.mp hev with h' | h'
      · subst h'; rfl
      · exact h6 ev h'
    · rw [if_neg h]
      refine ⟨rfl, rfl, rfl,
        ⟨[Event.deleteJobObject k false], by simp [resState, emit], ?_⟩⟩
      intro ev hev
      rcases List.mem_cons.mp hev with h' | h'
      · subst h'; rfl
      · cases h'

theorem foldl_emit_getJob :
    ∀ (l : List String) (s : WorldState),
      l.foldl (fun acc k => emit acc (.getJobObject k)) s
        = { s with trace := s.trace ++ l.map Event.getJobObject } := by
  intro l
  induction l with
  | nil => intro s; simp
  | cons k rest ih =>
    intro s
    simp only [List.foldl_cons]
    rw [ih]
    simp [emit]

/-! Remaining helper lemmas. -/

theorem string_data_inj (s t : String) (h : s.data = t.data) : s = t := by
  cases s; cases t; simp_all

theorem isDeleteJob_props (ev : Event) (h : ev.isDeleteJob = true) :
    ev.isRecordEvent = false ∧ ev.isRecordFailure = false ∧ ev.isDelTrue = false := by
  cases ev <;> simp_all [Event.isDeleteJob, Event.isRecordEvent, Event.isRecordFailure,
    Event.isDelTrue]

theorem foldl_jobStep_instances :
    ∀ (l : List (String × Descriptor)) (acc : JobData) (i : String),
      i ∈ (l.foldl jobStep acc).instances
        ↔ i ∈ acc.instances ∨ ∃ kv ∈ l, i ∈ kv.2.instances := by
  intro l
  induction l with
  | nil => intro acc i; simp
  | cons x xs ih =>
    intro acc i
    simp only [List.foldl_cons]
    rw [ih]
    simp only [jobStep, List.mem_append, List.mem_cons]
    constructor
    · rintro ((h | h) | ⟨kv, hkv, h⟩)
      · exact Or.inl h
      · exact Or.inr ⟨x, Or.inl rfl, h⟩
      · exact Or.inr ⟨kv, Or.inr hkv, h⟩
    · rintro (h | ⟨kv, h' | h', h⟩)
      · exact Or.inl (Or.inl h)
      · subst h'; exact Or.inl (Or.inr h)
      · exact Or.inr ⟨kv, h', h⟩

theorem foldl_jobStep_creds :
    ∀ (l : List (String × Descriptor)) (acc : JobData) (kv : String × Descriptor),
      l.getLast? = some kv →
      (l.foldl jobStep acc).kobo_username = kv.2.kobo_username
      ∧ (l.foldl jobStep acc).kobo_password = kv.2.kobo_password
      ∧ (l.foldl jobStep acc).kobo_uid = kv.2.kobo_uid
      ∧ (l.foldl jobStep acc).inat_username = kv.2.inaturalist_email
      ∧ (l.foldl jobStep acc).inat_password = kv.2.inaturalist_password
      ∧ (l.foldl jobStep acc).inat_client_id = kv.2.client_id
      ∧ (l.foldl jobStep acc).inat_client_secret = kv.2.client_secret := by
  intro l
  induction l with
  | nil => intro acc kv h; cases h
  | cons x xs ih =>
    intro acc kv h
    cases xs with
    | nil =>
      simp only [List.getLast?_singleton, Option.some.injEq] at h
      subst h
      exact ⟨rfl, rfl, rfl, rfl, rfl, rfl, rfl⟩
    | cons y ys =>
      rw [List.getLast?_cons_cons] at h
      simp only [List.foldl_cons]
      exact ih (jobStep acc x) kv h

theorem finish_job_bg (e : Env) (uid : String) (keys : List String) (subs : List Record)
    (sX : WorldState) (hX : bgCheck dabReq sX.trace [] = true) :
    bgCheck dabReq (resState (finish_job e uid keys subs sX)).trace [] = true := by
  unfold finish_job
  cases hrr : run_records e uid subs sX with
  | error s' =>
    have hbg := run_records_bg e uid subs sX hX
    rw [hrr] at hbg
    simpa [resState] using hbg
  | ok s₃ =>
    have hbg := run_records_bg e uid subs sX hX
    rw [hrr] at hbg
    simp only [resState] at hbg
    obtain ⟨_, _, _, ⟨δ, htr, hδ⟩⟩ := delete_objects_frame e keys s₃
    dsimp only
    rw [htr]
    exact bg_append _ _ _ _ hbg
      (bg_of_no_del _ _ (fun ev hev => (isDeleteJob_props ev (hδ ev hev)).2.2) [])

theorem finish_job_c3 (e : Env) (uid : String) (keys : List String) (subs : List Record)
    (sX : WorldState)
    (hfail : ∀ ev ∈ sX.trace, ev.isRecordFailure = false)
    (hdj : ∀ ev ∈ sX.trace, ev.isDeleteJob = false) :
    ((∃ ev ∈ (resState (finish_job e uid keys subs sX)).trace, ev.isRecordFailure = true) →
      (resState (finish_job e uid keys subs sX)).jobStore = sX.jobStore
      ∧ ∀ ev ∈ (resState (finish_job e uid keys subs sX)).trace, ev.isDeleteJob = false)
    ∧ ∃ l₁ l₂, (resState (finish_job e uid keys subs sX)).trace = l₁ ++ l₂
        ∧ (∀ ev ∈ l₁, ev.isDeleteJob = false)
        ∧ (∀ ev ∈ l₂, ev.isRecordEvent = false) := by
  unfold finish_job
  cases hrr : run_records e uid subs sX with
  | error s' =>
    simp only [resState]
    obtain ⟨hjob, ⟨δ, htr, hδ⟩⟩ := run_records_err e uid subs sX s' hrr
    have hnodj : ∀ ev ∈ s'.trace, ev.isDeleteJob = false := by
      intro ev hev
      rw [htr] at hev
      rcases List.mem_append.mp hev with h' | h'
      · exact hdj ev h'
      · exact isRecordEvent_not_deleteJob ev (hδ ev h')
    exact ⟨fun _ => ⟨hjob, hnodj⟩,
      ⟨s'.trace, [], by simp, hnodj, by intro ev hev; cases hev⟩⟩
  | ok s₃ =>
    dsimp only
    obtain ⟨hjob, ⟨δ, htr, hδ⟩, _⟩ := run_records_ok e uid subs sX s₃ hrr
    obtain ⟨_, _, _, ⟨δd, htrd, hδd⟩⟩ := delete_objects_frame e keys s₃
    constructor
    · rintro ⟨ev, hev, hfl⟩
      exfalso
      rw [htrd, htr] at hev
      rcases List.mem_append.mp hev with h' | h'
      · rcases List.mem_append.mp h' with h'' | h''
        · rw [hfail ev h''] at hfl; cases hfl
        · rw [(hδ ev h'').2] at hfl; cases hfl
      · rw [(isDeleteJob_props ev (hδd ev h')).2.1] at hfl; cases hfl
    · refine ⟨s₃.trace, δd, htrd, ?_, ?_⟩
      · intro ev hev
        rw [htr] at hev
        rcases List.mem_append.mp hev with h' | h'
        · exact hdj ev h'
        · exact isRecordEvent_not_deleteJob ev (hδ ev h').1
      · intro ev hev
        exact (isDeleteJob_props ev (hδd ev hev)).1

/-! Claim theorems. -/

/-- C5: for every identity prefix with zero stored job descriptors, the run
is a clean no-op: `main` returns normally with the world state unchanged
apart from the job-store listing event — so no submissions-API,
source-platform, destination-platform or backup-store call happens and
nothing is deleted. -/
theorem absent_job_is_noop (e : Env) (email : String) (s : WorldState)
    (h : s.jobStore.filter (fun kv => strStartsWith kv.1 email) = []) :
    main e email s = .ok (emit s (.listJobs email)) := by
  unfold main
  have hj : get_job_data email (emit s (.listJobs email)).jobStore = none := by
    simp only [emit_jobStore]
    unfold get_job_data
    rw [h]
  dsimp only
  rw [hj]

/-- Witness for C5 at a concrete no-descriptor prefix. -/
theorem absent_job_is_noop_witness :
    st0.jobStore.filter (fun kv => strStartsWith kv.1 "z") = []
    ∧ main envOk "z" st0 = .ok (emit st0 (Event.listJobs "z")) :=
  ⟨by decide, absent_job_is_noop envOk "z" st0 (by decide)⟩

/-- C6: for every identity prefix with at least one stored descriptor, the
loaded job's instance set is the union of the instance sets of all matching
descriptors, and its credentials are those of the last matching descriptor
(last-writer-wins). -/
theorem job_merge_union_last_writer (email : String) (store : List (String × Descriptor))
    (jd : JobData) (h : get_job_data email store = some jd) :
    (∀ i : String, i ∈ jd.instances
      ↔ ∃ kv ∈ store.filter (fun kv => strStartsWith kv.1 email), i ∈ kv.2.instances)
    ∧ ∃ kv, (store.filter (fun kv => strStartsWith kv.1 email)).getLast? = some kv
        ∧ jd.kobo_username = kv.2.kobo_username
        ∧ jd.kobo_password = kv.2.kobo_password
        ∧ jd.kobo_uid = kv.2.kobo_uid
        ∧ jd.inat_username = kv.2.inaturalist_email
        ∧ jd.inat_password = kv.2.inaturalist_password
        ∧ jd.inat_client_id = kv.2.client_id
        ∧ jd.inat_client_secret = kv.2.client_secret := by
  unfold get_job_data at h
  cases hf : store.filter (fun kv => strStartsWith kv.1 email) with
  | nil => rw [hf] at h; cases h
  | cons x xs =>
    rw [hf] at h
    injection h with h
    subst h
    constructor
    · intro i
      rw [foldl_jobStep_instances]
      simp [emptyJobData]
    · have hsome : ((x :: xs).getLast?).isSome = true := by
        cases xs <;> simp [List.getLast?_cons_cons]
      obtain ⟨kv, hkv⟩ := Option.isSome_iff_exists.mp hsome
      exact ⟨kv, hkv, foldl_jobStep_creds (x :: xs) emptyJobData kv hkv⟩

/-- Witness for C6 at a two-descriptor store. -/
theorem job_merge_union_last_writer_witness :
    get_job_data "e" store2 = some jd6
    ∧ ((∀ i : String, i ∈ jd6.instances
        ↔ ∃ kv ∈ store2.filter (fun kv => strStartsWith kv.1 "e"), i ∈ kv.2.instances)
      ∧ ∃ kv, (store2.filter (fun kv => strStartsWith kv.1 "e")).getLast? = some kv
          ∧ jd6.kobo_username = kv.2.kobo_username
          ∧ jd6.kobo_password = kv.2.kobo_password
          ∧ jd6.kobo_uid = kv.2.kobo_uid
          ∧ jd6.inat_username = kv.2.inaturalist_email
          ∧ jd6.inat_password = kv.2.inaturalist_password
          ∧ jd6.inat_client_id = kv.2.client_id
          ∧ jd6.inat_client_secret = kv.2.client_secret) :=
  ⟨by decide, job_merge_union_last_writer "e" store2 jd6 (by decide)⟩

/-- C7: every record in the filtered fetch result comes from the API
response and has its instance in the job's instance set, and when no record
of the response matches, the result is the empty list (returned normally,
not an error). -/
theorem fetch_filter_subset (e : Env) (instances : List String) (s s' : WorldState)
    (l : List Record) (h : get_submissions e instances s = .ok (s', l)) :
    (∀ r ∈ l, r ∈ e.submissionsResponse ∧ r.instance_ ∈ instances)
    ∧ ((∀ r ∈ e.submissionsResponse, r.instance_ ∉ instances) → l = []) := by
  unfold get_submissions at h
  by_cases hf : e.fetchOk
  · rw [if_pos hf] at h
    injection h with h
    injection h with h1 h2
    subst h2
    constructor
    · intro r hr
      have := List.mem_filter.mp hr
      exact ⟨this.1, by simpa using this.2⟩
    · intro hnone
      unfold filter_submissions
      rw [List.filter_eq_nil_iff]
      intro r hr
      simpa using hnone r hr
  · rw [if_neg hf] at h; cases h

/-- Witness for C7 at a concrete response and instance set. -/
theorem fetch_filter_subset_witness :
    get_submissions envOk ["A", "B"] st0 = .ok (emit st0 (.fetchSubmissions true), [r0, rB])
    ∧ ((∀ r ∈ [r0, rB], r ∈ envOk.submissionsResponse ∧ r.instance_ ∈ ["A", "B"])
      ∧ ((∀ r ∈ envOk.submissionsResponse, r.instance_ ∉ ["A", "B"]) → [r0, rB] = [])) :=
  ⟨rfl, fetch_filter_subset envOk ["A", "B"] st0
    (emit st0 (.fetchSubmissions true)) [r0, rB] rfl⟩

/-- C10: the fetch filter returns exactly the subsequence of the response
whose records' instance is in the given set — order is preserved (the
result is a sublist), multiplicity is preserved (duplicate matching
records each stay), every matching record appears — and the record loop
processes every element of the filtered list (a successful run contains a
source-deletion event for each one). -/
theorem fetch_filter_exact_subsequence (resp : List Record) (instances : List String) :
    List.Sublist (filter_submissions resp instances) resp
    ∧ (∀ r : Record, r.instance_ ∈ instances →
        (filter_submissions resp instances).count r = resp.count r)
    ∧ (∀ r ∈ resp, r.instance_ ∈ instances → r ∈ filter_submissions resp instances)
    ∧ (∀ (e : Env) (uid : String) (recs : List Record) (s s' : WorldState),
        run_records e uid recs s = .ok s' →
        ∀ r ∈ recs, Event.deleteInstance uid r.instance_ true ∈ s'.trace) := by
  refine ⟨List.filter_sublist resp, ?_, ?_, ?_⟩
  · intro r hr
    exact List.count_filter (by simpa using hr)
  · intro r hr hi
    exact List.mem_filter.mpr ⟨hr, by simpa using hi⟩
  · intro e uid recs s s' h
    exact (run_records_ok e uid recs s s' h).2.2

/-- Witness for C10 at a concrete response and instance set. -/
theorem fetch_filter_exact_subsequence_witness :
    List.Sublist (filter_submissions [r0, rB, rC] ["A", "B"]) [r0, rB, rC]
    ∧ (∀ r : Record, r.instance_ ∈ ["A", "B"] →
        (filter_submissions [r0, rB, rC] ["A", "B"]).count r = ([r0, rB, rC]).count r)
    ∧ (∀ r ∈ [r0, rB, rC], r.instance_ ∈ ["A", "B"]
        → r ∈ filter_submissions [r0, rB, rC] ["A", "B"])
    ∧ (∀ (e : Env) (uid : String) (recs : List Record) (s s' : WorldState),
        run_records e uid recs s = .ok s' →
        ∀ r ∈ recs, Event.deleteInstance uid r.instance_ true ∈ s'.trace) :=
  fetch_filter_exact_subsequence [r0, rB, rC] ["A", "B"]

/-- C1: the source instance of a record is never deleted before the
record's backup has succeeded.  In a record's processing from a clean
trace, every successful source-deletion event is preceded by successful
backup puts of the record's JSON body and of all its image objects
(`bgCheck (recordReq ..)`), and whenever the processing raises, the
source-instance store is exactly as before — in particular a failed
backup write leaves the instance in place.  At the job level, every
successful deletion in a whole run of `main` is preceded by a successful
put of that instance's JSON backup key (`bgCheck dabReq`). -/
theorem delete_only_after_backup (e : Env) (uid : String) (r : Record) (s : WorldState)
    (email : String) (s₀ : WorldState) (h : s.trace = []) (h₀ : s₀.trace = []) :
    bgCheck (recordReq uid r) (resState (process_record e uid r s)).trace [] = true
    ∧ bgCheck dabReq (resState (process_record e uid r s)).trace [] = true
    ∧ (isErr (process_record e uid r s) = true →
        (resState (process_record e uid r s)).sourceInstances = s.sourceInstances)
    ∧ bgCheck dabReq (resState (main e email s₀)).trace [] = true := by
  have hmain : bgCheck dabReq (resState (main e email s₀)).trace [] = true := by
    unfold main
    dsimp only
    cases hj : get_job_data email (emit s₀ (.listJobs email)).jobStore with
    | none =>
      simp only [resState, emit_trace, h₀, List.nil_append]
      rfl
    | some jd =>
      dsimp only
      rw [foldl_emit_getJob]
      unfold get_submissions
      by_cases hf : e.fetchOk
      · rw [if_pos hf]
        dsimp only
        refine finish_job_bg e jd.kobo_uid jd.objects_to_delete _ _ ?_
        simp only [emit_trace, h₀, List.nil_append]
        apply bg_of_no_del
        intro ev hev
        rcases List.mem_append.mp hev with h1 | h1
        · rcases List.mem_append.mp h1 with h2 | h2
          · rw [List.mem_singleton] at h2; subst h2; rfl
          · obtain ⟨k, _, hk⟩ := List.mem_map.mp h2; subst hk; rfl
        · rw [List.mem_singleton] at h1; subst h1; rfl
      · rw [if_neg hf]
        simp only [resState, emit_trace, h₀, List.nil_append]
        apply bg_of_no_del
        intro ev hev
        rcases List.mem_append.mp hev with h1 | h1
        · rcases List.mem_append.mp h1 with h2 | h2
          · rw [List.mem_singleton] at h2; subst h2; rfl
          · obtain ⟨k, _, hk⟩ := List.mem_map.mp h2; subst hk; rfl
        · rw [List.mem_singleton] at h1; subst h1; rfl
  cases hpr : process_record e uid r s with
  | error s' =>
    simp only [resState, isErr]
    obtain ⟨_, hsrc, _, _, ⟨δ, htr, _, hnd⟩⟩ := process_record_err e uid r s s' hpr
    simp only [htr, h, List.nil_append]
    exact ⟨bg_of_no_del _ δ hnd [], bg_of_no_del _ δ hnd [], fun _ => hsrc, hmain⟩
  | ok s' =>
    simp only [resState, isErr]
    obtain ⟨_, _, _, _, _, ⟨δ, htr, _, _, hbg⟩⟩ := process_record_ok e uid r s s' hpr
    simp only [htr, h, List.nil_append]
    refine ⟨hbg (recordReq uid r) ?_, hbg dabReq ?_, fun hh => absurd hh (by decide), hmain⟩
    · intro k hk
      simp only [recordReq, if_pos (show uid = uid ∧ r.instance_ = r.instance_ from ⟨rfl, rfl⟩)]
        at hk
      rcases List.mem_cons.mp hk with h' | h'
      · exact Or.inl h'
      · exact Or.inr h'
    · intro k hk
      rcases List.mem_cons.mp hk with h' | h'
      · exact Or.inl h'
      · cases h'

/-- Witness for C1 at a concrete record and run. -/
theorem delete_only_after_backup_witness :
    st0.trace = []
    ∧ (bgCheck (recordReq "uid" r0) (resState (process_record envOk "uid" r0 st0)).trace []
        = true
      ∧ bgCheck dabReq (resState (process_record envOk "uid" r0 st0)).trace [] = true
      ∧ (isErr (process_record envOk "uid" r0 st0) = true →
          (resState (process_record envOk "uid" r0 st0)).sourceInstances = st0.sourceInstances)
      ∧ bgCheck dabReq (resState (main envOk "e" st0)).trace [] = true) :=
  ⟨rfl, delete_only_after_backup envOk "uid" r0 st0 "e" st0 rfl rfl⟩

/-- C3: in every run of `main`, job descriptors are deleted only after all
records of the job have been attempted — the final trace splits into a
prefix with no descriptor-deletion event followed by a suffix with no
record-processing event — and if any record-level failure occurred during
the run, no descriptor was deleted at all and the job store is exactly as
before the run. -/
theorem descriptor_deletion_only_after_clean_run (e : Env) (email : String)
    (s : WorldState) (h : s.trace = []) :
    ((∃ ev ∈ (resState (main e email s)).trace, ev.isRecordFailure = true) →
      (resState (main e email s)).jobStore = s.jobStore
      ∧ ∀ ev ∈ (resState (main e email s)).trace, ev.isDeleteJob = false)
    ∧ ∃ l₁ l₂, (resState (main e email s)).trace = l₁ ++ l₂
        ∧ (∀ ev ∈ l₁, ev.isDeleteJob = false)
        ∧ (∀ ev ∈ l₂, ev.isRecordEvent = false) := by
  unfold main
  dsimp only
  cases hj : get_job_data email (emit s (.listJobs email)).jobStore with
  | none =>
    simp only [resState]
    have hnd : ∀ ev ∈ (emit s (Event.listJobs email)).trace, ev.isDeleteJob = false := by
      intro ev hev
      rw [emit_trace, h, List.nil_append, List.mem_singleton] at hev
      subst hev; rfl
    exact ⟨fun _ => ⟨rfl, hnd⟩,
      ⟨(emit s (Event.listJobs email)).trace, [], by simp, hnd, by intro ev hev; cases hev⟩⟩
  | some jd =>
    dsimp only
    rw [foldl_emit_getJob]
    unfold get_submissions
    by_cases hf : e.fetchOk
    · rw [if_pos hf]
      dsimp only
      exact finish_job_c3 e jd.kobo_uid jd.objects_to_delete _ _
        (by
          intro ev hev
          simp only [emit_trace, h, List.nil_append] at hev
          rcases List.mem_append.mp hev with h1 | h1
          · rcases List.mem_append.mp h1 with h2 | h2
            · rw [List.mem_singleton] at h2; subst h2; rfl
            · obtain ⟨k, _, hk⟩ := List.mem_map.mp h2; subst hk; rfl
          · rw [List.mem_singleton] at h1; subst h1; rfl)
        (by
          intro ev hev
          simp only [emit_trace, h, List.nil_append] at hev
          rcases List.mem_append.mp hev with h1 | h1
          · rcases List.mem_append.mp h1 with h2 | h2
            · rw [List.mem_singleton] at h2; subst h2; rfl
            · obtain ⟨k, _, hk⟩ := List.mem_map.mp h2; subst hk; rfl
          · rw [List.mem_singleton] at h1; subst h1; rfl)
    · rw [if_neg hf]
      simp only [resState]
      have hnd : ∀ ev ∈ (emit { emit s (.listJobs email) with
          trace := (emit s (.listJobs email)).trace
            ++ jd.objects_to_delete.map Event.getJobObject } (.fetchSubmissions false)).trace,
          ev.isDeleteJob = false := by
        intro ev hev
        simp only [emit_trace, h, List.nil_append] at hev
        rcases List.mem_append.mp hev with h1 | h1
        · rcases List.mem_append.mp h1 with h2 | h2
          · rw [List.mem_singleton] at h2; subst h2; rfl
          · obtain ⟨k, _, hk⟩ := List.mem_map.mp h2; subst hk; rfl
        · rw [List.mem_singleton] at h1; subst h1; rfl
      exact ⟨fun _ => ⟨rfl, hnd⟩, ⟨_, [], by simp, hnd, by intro ev hev; cases hev⟩⟩

/-- Witness for C3 at a run with a concrete record-level failure. -/
theorem descriptor_deletion_only_after_clean_run_witness :
    st0.trace = []
    ∧ (((∃ ev ∈ (resState (main envPullFailA "e" st0)).trace, ev.isRecordFailure = true) →
        (resState (main envPullFailA "e" st0)).jobStore = st0.jobStore
        ∧ ∀ ev ∈ (resState (main envPullFailA "e" st0)).trace, ev.isDeleteJob = false)
      ∧ ∃ l₁ l₂, (resState (main envPullFailA "e" st0)).trace = l₁ ++ l₂
          ∧ (∀ ev ∈ l₁, ev.isDeleteJob = false)
          ∧ (∀ ev ∈ l₂, ev.isRecordEvent = false)) :=
  ⟨rfl, descriptor_deletion_only_after_clean_run envPullFailA "e" st0 rfl⟩

/-- C8 counterexample: a record that completes every step successfully
still leaves both of its local image artifacts on disk at the end of its
processing — the pipeline contains no release of local image files, so the
claim that artifacts are released by the end of the record's processing is
false on the code. -/
theorem artifacts_not_released_cex :
    isErr (process_record envOk "uid" r0 st0) = false
    ∧ (resState (process_record envOk "uid" r0 st0)).localFiles
        = [("uid_A_img1", "bytes-img1"), ("uid_A_img2", "bytes-img2")] := by
  decide

/-- C8 amended: local image artifacts are never released by the pipeline:
the local store only grows during a record's processing, whatever the
outcome, and after a successful record every materialized artifact is
still present on local storage. -/
theorem artifacts_persist (e : Env) (uid : String) (r : Record) (s : WorldState) :
    (∃ t, (resState (process_record e uid r s)).localFiles = s.localFiles ++ t)
    ∧ (isErr (process_record e uid r s) = false →
        (resState (process_record e uid r s)).localFiles
          = s.localFiles ++ r.images.map
              (fun im => (imagePath uid r.instance_ im, e.imageBytes uid r.instance_ im))) := by
  cases hpr : process_record e uid r s with
  | error s' =>
    simp only [resState, isErr]
    obtain ⟨_, _, _, ⟨t, hlf⟩, _⟩ := process_record_err e uid r s s' hpr
    exact ⟨⟨t, hlf⟩, by intro hh; cases hh⟩
  | ok s' =>
    simp only [resState, isErr]
    obtain ⟨_, _, _, _, hlf, _⟩ := process_record_ok e uid r s s' hpr
    exact ⟨⟨_, hlf⟩, fun _ => hlf⟩

/-- Witness for the amended C8 at a successful concrete record. -/
theorem artifacts_persist_witness :
    (∃ t, (resState (process_record envOk "uid" r0 st0)).localFiles = st0.localFiles ++ t)
    ∧ (isErr (process_record envOk "uid" r0 st0) = false →
        (resState (process_record envOk "uid" r0 st0)).localFiles
          = st0.localFiles ++ r0.images.map
              (fun im => (imagePath "uid" r0.instance_ im, envOk.imageBytes "uid" r0.instance_ im))) :=
  artifacts_persist envOk "uid" r0 st0

/-- C9 counterexample: the image references `a_x` and `b_x` are distinct,
yet their backup keys coincide, because the key is derived from the final
underscore-delimited token of the local path; a record carrying both images
completes successfully and the stored object under the shared key holds
only the second image's bytes — the first backup was silently
overwritten. -/
theorem image_key_collision_cex :
    ("a_x" : String) ≠ "b_x"
    ∧ imgKeyOfPath "uid" "A" (imagePath "uid" "A" "a_x")
        = imgKeyOfPath "uid" "A" (imagePath "uid" "A" "b_x")
    ∧ isErr (process_record envOk "uid" rColl st0) = false
    ∧ lookupLast (resState (process_record envOk "uid" rColl st0)).backup "uid/A/x.jpg"
        = some "bytes-b_x" := by
  decide

/-- C9 amended: distinct image references of a record map to distinct
backup object keys provided the references contain no underscore (then the
filename-derived suffix is the whole reference); with underscores, distinct
references sharing their final underscore-delimited token collide. -/
theorem image_keys_distinct_no_underscore (uid inst img₁ img₂ : String)
    (h₁ : '_' ∉ img₁.data) (h₂ : '_' ∉ img₂.data) (hne : img₁ ≠ img₂) :
    imgKeyOfPath uid inst (imagePath uid inst img₁)
      ≠ imgKeyOfPath uid inst (imagePath uid inst img₂) := by
  unfold imgKeyOfPath
  rw [lastToken_imagePath uid inst img₁ h₁, lastToken_imagePath uid inst img₂ h₂]
  intro h
  apply hne
  apply string_data_inj
  have hd := congrArg String.data h
  simp only [String.data_append, List.append_assoc] at hd
  have hd1 := List.append_cancel_left hd
  have hd2 := List.append_cancel_left hd1
  have hd3 := List.append_cancel_left hd2
  have hd4 := List.append_cancel_left hd3
  exact List.append_cancel_right hd4

/-- Witness for the amended C9 at two concrete underscore-free references. -/
theorem image_keys_distinct_no_underscore_witness :
    '_' ∉ ("img1" : String).data ∧ '_' ∉ ("img2" : String).data
    ∧ ("img1" : String) ≠ "img2"
    ∧ imgKeyOfPath "uid" "A" (imagePath "uid" "A" "img1")
        ≠ imgKeyOfPath "uid" "A" (imagePath "uid" "A" "img2") :=
  ⟨by decide, by decide, by decide,
    image_keys_distinct_no_underscore "uid" "A" "img1" "img2" (by decide) (by decide) (by decide)⟩

/-- C4: when a record completes all pipeline steps successfully, the
backup store afterwards holds the record body — serialized with stable key
ordering — under its JSON key, holds an object under every image's
suffix-derived key, and the source instance has been deleted. -/
theorem successful_record_backed_up_and_deleted (e : Env) (uid : String) (r : Record)
    (s : WorldState) (hnd : s.sourceInstances.Nodup)
    (h : isErr (process_record e uid r s) = false) :
    lookupLast (resState (process_record e uid r s)).backup (jsonKey uid r.instance_)
      = some (dumps (e.instancePayload uid r.instance_))
    ∧ (∀ img ∈ r.images,
        (lookupLast (resState (process_record e uid r s)).backup
          (imgKeyOfPath uid r.instance_ (imagePath uid r.instance_ img))).isSome = true)
    ∧ (uid, r.instance_) ∉ (resState (process_record e uid r s)).sourceInstances := by
  cases hpr : process_record e uid r s with
  | error s' => rw [hpr] at h; simp [isErr] at h
  | ok s' =>
    simp only [resState]
    obtain ⟨_, hsrc, hjson, himgs, _, _⟩ := process_record_ok e uid r s s' hpr
    refine ⟨hjson, ?_, ?_⟩
    · intro img himg
      obtain ⟨b, hb⟩ := himgs img himg
      exact lookupLast_isSome_of_mem _ _ _ hb
    · rw [hsrc]
      exact hnd.not_mem_erase

/-- Witness for C4 at a successful concrete record. -/
theorem successful_record_backed_up_and_deleted_witness :
    st0.sourceInstances.Nodup
    ∧ isErr (process_record envOk "uid" r0 st0) = false
    ∧ (lookupLast (resState (process_record envOk "uid" r0 st0)).backup (jsonKey "uid" r0.instance_)
        = some (dumps (envOk.instancePayload "uid" r0.instance_))
      ∧ (∀ img ∈ r0.images,
          (lookupLast (resState (process_record envOk "uid" r0 st0)).backup
            (imgKeyOfPath "uid" r0.instance_ (imagePath "uid" r0.instance_ img))).isSome = true)
      ∧ ("uid", r0.instance_) ∉ (resState (process_record envOk "uid" r0 st0)).sourceInstances) :=
  ⟨by decide, by decide,
    successful_record_backed_up_and_deleted envOk "uid" r0 st0 (by decide) (by decide)⟩

/-- C2 counterexample: with two matching records `A` then `B`, where only
the image pull of `A` fails, the run aborts at the failure: the final trace
ends with the failed pull and contains no event for record `B`, whose
instance is neither backed up nor deleted — a record-level failure does
NOT make processing continue with the next record of the job, refuting the
claim. -/
theorem record_failure_stops_run_cex :
    isErr (main envPullFailA "e" st0) = true
    ∧ (resState (main envPullFailA "e" st0)).trace
        = [Event.listJobs "e", Event.getJobObject "e1", Event.fetchSubmissions true,
          Event.pullImage "uid" "A" "img1" false]
    ∧ (resState (main envPullFailA "e" st0)).backup = []
    ∧ (resState (main envPullFailA "e" st0)).sourceInstances = [("uid", "A"), ("uid", "B")] := by
  decide

/-- C2 amended: a record-level failure aborts the rest of the run — the
loop returns the failure state at once, so later records of the job are
never attempted — while the failed record's source instance is untouched
and the effects of records processed earlier (already in the pre-state)
are preserved: the backup log is only extended and the source-instance
list is exactly as before the failing record. -/
theorem record_failure_aborts_rest (e : Env) (uid : String) (r : Record)
    (rest : List Record) (s s' : WorldState)
    (h : process_record e uid r s = .error s') :
    run_records e uid (r :: rest) s = .error s'
    ∧ s'.sourceInstances = s.sourceInstances
    ∧ ∃ t, s'.backup = s.backup ++ t := by
  obtain ⟨_, hsrc, hback, _, _⟩ := process_record_err e uid r s s' h
  exact ⟨run_records_cons_err e uid r rest s s' h, hsrc, hback⟩

/-- Witness for the amended C2 at the concrete failing record. -/
theorem record_failure_aborts_rest_witness :
    process_record envPullFailA "uid" r0 st0
      = .error (resState (process_record envPullFailA "uid" r0 st0))
    ∧ (run_records envPullFailA "uid" (r0 :: [rB]) st0
        = .error (resState (process_record envPullFailA "uid" r0 st0))
      ∧ (resState (process_record envPullFailA "uid" r0 st0)).sourceInstances
          = st0.sourceInstances
      ∧ ∃ t, (resState (process_record envPullFailA "uid" r0 st0)).backup
          = st0.backup ++ t) :=
  ⟨rfl, record_failure_aborts_rest envPullFailA "uid" r0 [rB] st0
    (resState (process_record envPullFailA "uid" r0 st0)) rfl⟩

end PushToInat
